import Mathlib

/-! The program `sanny`: directory-listing parser and bounded download scheduler.

A shallow embedding of `sanny.go` and of the library behaviour it relies on
(`strings`, `regexp`, `path/filepath`, `net/url`, `golang.org/x/net/html` node
trees, `os.Stat`), followed by the properties proved about it.

A Go `string` is modelled as the list of its characters.  Every string the
program compares against is ASCII, so the byte-wise reading of Go and the
character-wise reading used here agree on all tests made by the code.
-/

set_option autoImplicit false

/-- A Go string, as the list of its characters. -/
abbrev GoString := List Char

/-! ## Package `strings` -/

namespace strings

/-- Go `strings.HasPrefix(s, prefix)`. -/
def HasPrefix (s pre : GoString) : Bool := pre.isPrefixOf s

/-- Go `strings.HasSuffix(s, suffix)`. -/
def HasSuffix (s suf : GoString) : Bool := suf.isSuffixOf s

end strings

/-! ## Package `regexp` (the fragment the pattern of `parseHTML` uses) -/

namespace regexp

/-- Syntax trees of `regexp/syntax`, restricted to the operators that occur in
the pattern of `parseHTML`: `OpCharClass` (a list of inclusive rune ranges),
`OpLiteral`, `OpConcat`, `OpPlus`, `OpRepeat` with its bounds, `OpBeginText`
and `OpEndText`. -/
inductive Regexp where
  | CharClass (ranges : List (Char × Char))
  | Literal (c : Char)
  | Concat (a b : Regexp)
  | Plus (a : Regexp)
  | Repeat (a : Regexp) (min max : Nat)
  | BeginText
  | EndText

/-- Membership of a rune in a character class given by inclusive ranges. -/
def inClass (ranges : List (Char × Char)) (c : Char) : Bool :=
  ranges.any fun r => decide (r.1 ≤ c) && decide (c ≤ r.2)

/-- One or more iterations of a matcher `m`; `fuel` bounds the number of
iterations (an iteration that makes progress consumes a character). -/
def plusLoop (m : Bool → GoString → (Bool → GoString → Bool) → Bool) :
    Nat → Bool → GoString → (Bool → GoString → Bool) → Bool
  | 0, _, _, _ => false
  | fuel + 1, atStart, s, k =>
      m atStart s fun atStart' s' => k atStart' s' || plusLoop m fuel atStart' s' k

/-- Between `min` and `max` iterations of a matcher `m`. -/
def repeatLoop (m : Bool → GoString → (Bool → GoString → Bool) → Bool) :
    Nat → Nat → Bool → GoString → (Bool → GoString → Bool) → Bool
  | 0, 0, atStart, s, k => k atStart s
  | 0, max + 1, atStart, s, k =>
      k atStart s || m atStart s fun atStart' s' => repeatLoop m 0 max atStart' s' k
  | _ + 1, 0, _, _, _ => false
  | min + 1, max + 1, atStart, s, k =>
      m atStart s fun atStart' s' => repeatLoop m min max atStart' s' k

/-- Backtracking matcher in continuation-passing style.  The position in the
text is the pair of `atStart` (nothing has been consumed and the match started
at offset 0) and the remaining input; `k` receives the position after the
match of the sub-expression. -/
def matchK : Regexp → Bool → GoString → (Bool → GoString → Bool) → Bool
  | .CharClass _, _, [], _ => false
  | .CharClass ranges, _, c :: t, k => inClass ranges c && k false t
  | .Literal _, _, [], _ => false
  | .Literal a, _, c :: t, k => decide (c = a) && k false t
  | .Concat a b, atStart, s, k => matchK a atStart s fun atStart' s' => matchK b atStart' s' k
  | .Plus a, atStart, s, k => plusLoop (matchK a) (s.length + 1) atStart s k
  | .Repeat a min max, atStart, s, k => repeatLoop (matchK a) min max atStart s k
  | .BeginText, atStart, s, k => atStart && k atStart s
  | .EndText, atStart, s, k => s.isEmpty && k atStart s

/-- Unanchored search: is there a match starting at the current offset or at a
later one? -/
def searchFrom (re : Regexp) : Bool → GoString → Bool
  | atStart, [] => matchK re atStart [] fun _ _ => true
  | atStart, c :: t => matchK re atStart (c :: t) (fun _ _ => true) || searchFrom re false t

/-- Go `(*Regexp).MatchString`: does the string contain any match of `re`? -/
def MatchString (re : Regexp) (s : GoString) : Bool := searchFrom re true s

end regexp

/-! ## The classifier of `parseHTML` -/

/-- The class `[\w\-\.]` as rune ranges: `\w` is `[0-9A-Za-z_]`. -/
def nameClass : List (Char × Char) :=
  [('0', '9'), ('A', 'Z'), ('_', '_'), ('a', 'z'), ('-', '-'), ('.', '.')]

/-- The class `[a-zA-Z0-9]` as rune ranges. -/
def extClass : List (Char × Char) := [('a', 'z'), ('A', 'Z'), ('0', '9')]

open regexp in
/-- The pattern compiled in `parseHTML`, as parsed by `regexp/syntax` with the
Perl flags of `regexp.Compile` (under which `^` and `$` are `OpBeginText` and
`OpEndText`, and `\w` is `[0-9A-Za-z_]`):
`^[\w\-\.]+\.[a-zA-Z0-9]{1,10}$`. -/
def pattern : Regexp :=
  .Concat .BeginText
    (.Concat (.Plus (.CharClass nameClass))
      (.Concat (.Literal '.')
        (.Concat (.Repeat (.CharClass extClass) 1 10)
          .EndText)))

/-- The body of the `href` branch of `parseHTML` (lines 60-90), as the decision
it takes on one `href`: `true` when the value is appended to `paths`, `false`
on every `continue`. -/
def classify (href : GoString) : Bool :=
  if href = "../".toList ∨ href = "".toList ∨ href = "./".toList then false
  else if strings.HasPrefix href "http://".toList ||
      strings.HasPrefix href "https://".toList ||
      strings.HasPrefix href "//".toList then false
  else if strings.HasSuffix href "/".toList then false
  else regexp.MatchString pattern href

/-! ## The file-name grammar, in the words of the specification -/

/-- An ASCII letter. -/
def isAsciiLetter (c : Char) : Prop := ('a' ≤ c ∧ c ≤ 'z') ∨ ('A' ≤ c ∧ c ≤ 'Z')

/-- An ASCII digit. -/
def isAsciiDigit (c : Char) : Prop := '0' ≤ c ∧ c ≤ '9'

/-- An ASCII alphanumeric. -/
def isAsciiAlnum (c : Char) : Prop := isAsciiLetter c ∨ isAsciiDigit c

/-- A character of the name part: ASCII letter, digit, underscore, hyphen or dot. -/
def isNameChar (c : Char) : Prop :=
  isAsciiLetter c ∨ isAsciiDigit c ∨ c = '_' ∨ c = '-' ∨ c = '.'

instance (c : Char) : Decidable (isAsciiLetter c) := by unfold isAsciiLetter; infer_instance
instance (c : Char) : Decidable (isAsciiDigit c) := by unfold isAsciiDigit; infer_instance
instance (c : Char) : Decidable (isAsciiAlnum c) := by unfold isAsciiAlnum; infer_instance
instance (c : Char) : Decidable (isNameChar c) := by unfold isNameChar; infer_instance

/-- The file-name grammar: one or more name characters, a literal dot, then 1
to 10 ASCII alphanumerics, up to the end of the string. -/
def FileNameGrammar (h : GoString) : Prop :=
  ∃ name ext : GoString, h = name ++ '.' :: ext ∧ name ≠ [] ∧ (∀ c ∈ name, isNameChar c) ∧
    1 ≤ ext.length ∧ ext.length ≤ 10 ∧ ∀ c ∈ ext, isAsciiAlnum c

/-- The string has none of the shapes the reject rules of `parseHTML` test for. -/
def passesRejectRules (h : GoString) : Prop :=
  h ≠ "".toList ∧ h ≠ "../".toList ∧ h ≠ "./".toList ∧
    strings.HasPrefix h "http://".toList = false ∧
    strings.HasPrefix h "https://".toList = false ∧
    strings.HasPrefix h "//".toList = false ∧
    strings.HasSuffix h "/".toList = false

/-! ## HTML node trees and `parseHTML` -/

namespace html

/-- Go `html.NodeType`. -/
inductive NodeType where
  | ErrorNode
  | TextNode
  | DocumentNode
  | ElementNode
  | CommentNode
  | DoctypeNode
  | RawNode
  deriving DecidableEq

/-- Go `html.Attribute`. -/
structure Attribute where
  Namespace : GoString
  Key : GoString
  Val : GoString
  deriving DecidableEq

/-- Go `*html.Node`, with the fields `parseHTML` reads: `Type`, `Data`, `Attr`,
`FirstChild` and `NextSibling`.  `nil` is the nil pointer. -/
inductive Node where
  | nil
  | node (Typ : NodeType) (Data : GoString) (Attr : List Attribute)
      (FirstChild NextSibling : Node)

end html

/-- Go error values produced or passed on by the program. -/
inductive GoError where
  /-- The value of `fmt.Errorf("请求失败: %v", err)`. -/
  | requestFailed (cause : GoString)
  /-- The value of `fmt.Errorf("服务器返回错误状态码: %d", resp.StatusCode)`. -/
  | statusCode (code : Int)
  /-- The value of `fmt.Errorf("HTTP请求失败: %s", resp.Status)`. -/
  | httpStatus (status : GoString)
  /-- An error returned by a library call and passed on unchanged. -/
  | lib (msg : GoString)
  deriving DecidableEq

/-- One iteration of `for _, attr := range n.Attr` in `parseHTML`. -/
def hrefStep (paths : List GoString) (attr : html.Attribute) : List GoString :=
  if attr.Key = "href".toList then
    if classify attr.Val then paths ++ [attr.Val] else paths
  else paths

/-- The part of the closure `f` that precedes its loop over the children. -/
def visitNode (ty : html.NodeType) (data : GoString) (attrs : List html.Attribute)
    (paths : List GoString) : List GoString :=
  if ty = .ElementNode ∧ data = "a".toList then attrs.foldl hrefStep paths else paths

/-- The loop `for c := n.FirstChild; c != nil; c = c.NextSibling { f(c) }`,
entered at `c`: it runs `f(c)`, that is `visitNode` on `c` followed by the
loop over the children of `c`, and goes on with `c.NextSibling`.  The variable
`paths` captured by the closure is passed explicitly. -/
def childLoop : html.Node → List GoString → List GoString
  | .nil, paths => paths
  | .node ty data attrs fc ns, paths => childLoop ns (childLoop fc (visitNode ty data attrs paths))

/-- The closure `f` of `parseHTML`.  It is only ever called on a non-nil node. -/
def f : html.Node → List GoString → List GoString
  | .nil, paths => paths
  | .node ty data attrs fc _, paths => childLoop fc (visitNode ty data attrs paths)

/-- Go `parseHTML`.  `Parse` is `html.Parse` and `body` the content of the reader. -/
def parseHTML (Parse : GoString → Except GoError html.Node) (body : GoString) :
    Except GoError (List GoString) :=
  match Parse body with
  | .error err => .error err
  | .ok doc => .ok (f doc [])

/-! ## Document order, in the words of the specification -/

/-- The nodes of a sibling chain and of their subtrees in depth-first pre-order:
a node, then its descendants, then its following siblings. -/
def preorder : html.Node → List (html.NodeType × GoString × List html.Attribute)
  | .nil => []
  | .node ty data attrs fc ns => (ty, data, attrs) :: (preorder fc ++ preorder ns)

/-- The nodes of the tree rooted at `doc` in document order. -/
def documentOrder : html.Node → List (html.NodeType × GoString × List html.Attribute)
  | .nil => []
  | .node ty data attrs fc _ => (ty, data, attrs) :: preorder fc

/-- The `href` attribute values of a node: those of its `href` attributes when
it is an `a` element, none otherwise. -/
def hrefsOf (x : html.NodeType × GoString × List html.Attribute) : List GoString :=
  if x.1 = .ElementNode ∧ x.2.1 = "a".toList then
    (x.2.2.filter fun attr => decide (attr.Key = "href".toList)).map fun attr => attr.Val
  else []

/-- The `href` values of the anchors of a document, in document order. -/
def anchorHrefs (doc : html.Node) : List GoString := (documentOrder doc).flatMap hrefsOf

/-- A text node. -/
def textNode (data : String) (next : html.Node) : html.Node :=
  .node .TextNode data.toList [] .nil next

/-- An `a` element with one `href` attribute and one text child. -/
def anchor (href text : String) (next : html.Node) : html.Node :=
  .node .ElementNode "a".toList [⟨[], "href".toList, href.toList⟩] (textNode text .nil) next

/-- The tree `html.Parse` builds for
`<a href="../">..</a><a href="report.pdf">report.pdf</a><a href="sub/">sub/</a><a href="https://x.com/a.zip">a.zip</a>`:
a document node, `html`, an empty `head`, and `body` holding the four anchors. -/
def scenarioA : html.Node :=
  .node .DocumentNode [] []
    (.node .ElementNode "html".toList []
      (.node .ElementNode "head".toList [] .nil
        (.node .ElementNode "body".toList []
          (anchor "../" ".."
            (anchor "report.pdf" "report.pdf"
              (anchor "sub/" "sub/"
                (anchor "https://x.com/a.zip" "a.zip" .nil))))
          .nil))
      .nil)
    .nil

/-- A document whose anchors point outside the listing, followed by one file:
`<a href="ftp://host/a.zip">`, `<a href="file:///a.txt">`, `<a href="mailto:a.b">`,
`<a href="//cdn/x.js">`, `<a href="ok.txt">`. -/
def externalLinks : html.Node :=
  .node .DocumentNode [] []
    (.node .ElementNode "html".toList []
      (.node .ElementNode "head".toList [] .nil
        (.node .ElementNode "body".toList []
          (anchor "ftp://host/a.zip" "a.zip"
            (anchor "file:///a.txt" "a.txt"
              (anchor "mailto:a.b" "mail"
                (anchor "//cdn/x.js" "x.js"
                  (anchor "ok.txt" "ok.txt" .nil)))))
          .nil))
      .nil)
    .nil

/-- A character allowed in a URI scheme after its first letter. -/
def isSchemeChar (c : Char) : Prop :=
  isAsciiLetter c ∨ isAsciiDigit c ∨ c = '+' ∨ c = '-' ∨ c = '.'

instance (c : Char) : Decidable (isSchemeChar c) := by unfold isSchemeChar; infer_instance

/-- The string begins with a URI scheme: an ASCII letter, then letters, digits,
`+`, `-` or `.`, then `:`. -/
def BeginsWithScheme (h : GoString) : Prop :=
  ∃ (c : Char) (scheme rest : GoString),
    h = c :: scheme ++ ':' :: rest ∧ isAsciiLetter c ∧ ∀ x ∈ scheme, isSchemeChar x

/-! ## Package `strings`, continued -/

namespace strings

/-- Go `strings.LastIndexByte(s, c)`; `none` stands for `-1`. -/
def LastIndexByte : GoString → Char → Option Nat
  | [], _ => none
  | x :: t, c =>
    match LastIndexByte t c with
    | some i => some (i + 1)
    | none => if x = c then some 0 else none

/-- The elements `strings.Cut(remain, "/")` yields when it is iterated until
no separator is found: the pieces of `s` between the slashes. -/
def cutAll : GoString → List GoString
  | [] => [[]]
  | c :: t =>
    if c = '/' then [] :: cutAll t
    else
      match cutAll t with
      | seg :: rest => (c :: seg) :: rest
      | [] => [[c]]

end strings

/-! ## Package `net/url` -/

namespace url

/-- Go `url.URL`, for hierarchical URLs: `Opaque` is empty, `ForceQuery` and
`OmitHost` are false.  `User` is the rendered userinfo (`none` for nil) and
`Host` the rendered host.  The path is kept in the form `EscapedPath()`
returns; for a path that needs no percent-escaping (such as the one of an
accepted entry, see `shouldEscape`) this is `Path` itself. -/
structure URL where
  Scheme : GoString
  User : Option GoString
  Host : GoString
  Path : GoString
  RawQuery : GoString
  Fragment : GoString
  deriving DecidableEq

/-- Go `shouldEscape(c, encodePath)`: must the character be percent-escaped in
a path? -/
def shouldEscape (c : Char) : Bool :=
  if ('a' ≤ c ∧ c ≤ 'z') ∨ ('A' ≤ c ∧ c ≤ 'Z') ∨ ('0' ≤ c ∧ c ≤ '9') then false
  else if c = '-' ∨ c = '_' ∨ c = '.' ∨ c = '~' then false
  else if c = '$' ∨ c = '&' ∨ c = '+' ∨ c = ',' ∨ c = '/' ∨ c = ':' ∨ c = ';' ∨ c = '=' ∨
      c = '?' ∨ c = '@' then decide (c = '?')
  else true

/-- One iteration of the loop of `resolvePath` on the element `elem`; the state
is the builder `dst` and the flag `first`. -/
def resolveStep (st : GoString × Bool) (elem : GoString) : GoString × Bool :=
  if elem = ".".toList then (st.1, false)
  else if elem = "..".toList then
    let str := st.1.drop 1
    match strings.LastIndexByte str '/' with
    | none => ("/".toList, true)
    | some index => ('/' :: str.take index, st.2)
  else ((if st.2 then st.1 else st.1 ++ "/".toList) ++ elem, false)

/-- Go `resolvePath(base, ref)` (RFC 3986 sections 5.2.2 to 5.2.4). -/
def resolvePath (base ref : GoString) : GoString :=
  let full : GoString :=
    if ref = [] then base
    else if ref.head? ≠ some '/' then
      match strings.LastIndexByte base '/' with
      | none => ref
      | some i => base.take (i + 1) ++ ref
    else ref
  if full = [] then []
  else
    let elems := strings.cutAll full
    let dst := (elems.foldl resolveStep ("/".toList, true)).1
    let dst := if elems.getLast? = some ".".toList ∨ elems.getLast? = some "..".toList then
      dst ++ "/".toList else dst
    if (dst.drop 1).head? = some '/' then dst.drop 1 else dst

/-- Go `(*URL).ResolveReference`. -/
def ResolveReference (u ref : URL) : URL :=
  let url := if ref.Scheme = [] then { ref with Scheme := u.Scheme } else ref
  if ref.Scheme ≠ [] ∨ ref.Host ≠ [] ∨ ref.User ≠ none then
    { url with Path := resolvePath ref.Path [] }
  else
    let url :=
      if ref.Path = [] ∧ ref.RawQuery = [] then
        if ref.Fragment = [] then { url with RawQuery := u.RawQuery, Fragment := u.Fragment }
        else { url with RawQuery := u.RawQuery }
      else url
    { url with Host := u.Host, User := u.User, Path := resolvePath u.Path ref.Path }

/-- Go `(*URL).String`. -/
def String (u : URL) : GoString :=
  let buf : GoString := if u.Scheme ≠ [] then u.Scheme ++ ":".toList else []
  let buf : GoString :=
    if u.Scheme ≠ [] ∨ u.Host ≠ [] ∨ u.User ≠ none then
      let buf := if u.Host ≠ [] ∨ u.Path ≠ [] ∨ u.User ≠ none then buf ++ "//".toList else buf
      let buf := match u.User with
        | some ui => buf ++ ui ++ "@".toList
        | none => buf
      buf ++ u.Host
    else buf
  let buf : GoString :=
    if u.Path ≠ [] ∧ u.Path.head? ≠ some '/' ∧ u.Host ≠ [] then buf ++ "/".toList else buf
  let buf : GoString :=
    if buf = [] ∧ ':' ∈ (strings.cutAll u.Path).headD [] then buf ++ "./".toList else buf
  let buf := buf ++ u.Path
  let buf := if u.RawQuery ≠ [] then buf ++ "?".toList ++ u.RawQuery else buf
  if u.Fragment ≠ [] then buf ++ "#".toList ++ u.Fragment else buf

/-- The reference `&url.URL{Path: p}` built in `main`. -/
def pathRef (p : GoString) : URL := ⟨[], none, [], p, [], []⟩

end url

/-- The base URL `http://example.com/files/`. -/
def exampleBase : url.URL := ⟨"http".toList, none, "example.com".toList, "/files/".toList, [], []⟩

/-! ## Package `path/filepath` (Unix) -/

namespace filepath

/-- Go `filepath.Base`. -/
def Base (path : GoString) : GoString :=
  if path = [] then ".".toList
  else
    -- Strip trailing slashes.
    let path := (path.reverse.dropWhile fun c => decide (c = '/')).reverse
    -- Find the last element.
    let path := (path.reverse.takeWhile fun c => !decide (c = '/')).reverse
    -- If empty now, it had only slashes.
    if path = [] then "/".toList else path

/-- The inner loop of the `..` case of `Clean`: starting from `w`, step back
while `w > dotdot` and the byte at `w` is not a separator. -/
def backUpTo (out : GoString) (dotdot : Nat) : Nat → Nat
  | 0 => 0
  | w + 1 => if w + 1 > dotdot ∧ out.get? (w + 1) ≠ some '/' then backUpTo out dotdot w else w + 1

/-- The main loop of `Clean`: `rest` is `path[r:]`, `out` the buffer written so
far.  Every iteration consumes input, `fuel` bounds the iterations. -/
def cleanLoop (rooted : Bool) : Nat → GoString → GoString → Nat → GoString
  | 0, _, out, _ => out
  | _ + 1, [], out, _ => out
  | fuel + 1, c :: rest, out, dotdot =>
    if c = '/' then
      -- empty path element
      cleanLoop rooted fuel rest out dotdot
    else if c = '.' ∧ (rest = [] ∨ rest.head? = some '/') then
      -- . element
      cleanLoop rooted fuel rest out dotdot
    else if c = '.' ∧ rest.head? = some '.' ∧
        (rest.drop 1 = [] ∨ (rest.drop 1).head? = some '/') then
      -- .. element: remove to last separator
      if out.length > dotdot then
        cleanLoop rooted fuel (rest.drop 1) (out.take (backUpTo out dotdot (out.length - 1))) dotdot
      else if !rooted then
        let out := (if out.length > 0 then out ++ "/".toList else out) ++ "..".toList
        cleanLoop rooted fuel (rest.drop 1) out out.length
      else cleanLoop rooted fuel (rest.drop 1) out dotdot
    else
      -- real path element: add slash if needed, copy element
      let out := if (rooted ∧ out.length ≠ 1) ∨ (¬ rooted ∧ out.length ≠ 0) then
        out ++ "/".toList else out
      cleanLoop rooted fuel ((c :: rest).dropWhile fun x => !decide (x = '/'))
        (out ++ (c :: rest).takeWhile fun x => !decide (x = '/')) dotdot

/-- Go `filepath.Clean`. -/
def Clean (path : GoString) : GoString :=
  if path = [] then ".".toList
  else
    let rooted : Bool := path.head? = some '/'
    let out :=
      if rooted then cleanLoop rooted (path.length + 1) (path.drop 1) "/".toList 1
      else cleanLoop rooted (path.length + 1) path [] 0
    if out = [] then ".".toList else out

/-- Go `filepath.Join(dir, name)` for two elements. -/
def Join (dir name : GoString) : GoString :=
  if dir ≠ [] then Clean (dir ++ "/".toList ++ name)
  else if name ≠ [] then Clean name
  else []

end filepath

/-! ## Package `os`: `Stat` and the output directory -/

/-- How a called function ends: it returns a value or the goroutine panics. -/
inductive Outcome (α : Type) where
  | ret (a : α)
  | panic (msg : GoString)
  deriving DecidableEq

namespace os

/-- Error numbers `os.Stat` may report. -/
inductive Errno where
  | ENOENT
  | EACCES
  | ENOTDIR
  | ELOOP
  | EIO
  deriving DecidableEq

/-- Go `os.FileInfo`, with the method `fileExists` calls. -/
structure FileInfo where
  IsDir : Bool
  deriving DecidableEq

/-- The pair `os.Stat` returns: `(info, nil)` on success, `(nil, err)` on
failure. -/
inductive StatResult where
  | ok (info : FileInfo)
  | fail (err : Errno)
  deriving DecidableEq

/-- Go `os.IsNotExist(err)` on the error of a `StatResult` (`false` on a nil
error). -/
def IsNotExist : StatResult → Bool
  | .ok _ => false
  | .fail err => decide (err = .ENOENT)

end os

/-- Go `fileExists`, as a function of what `os.Stat(filename)` returned.  When
`Stat` failed, `info` is the nil interface and `info.IsDir()` panics. -/
def fileExists (st : os.StatResult) : Outcome Bool :=
  if os.IsNotExist st then .ret false
  else
    match st with
    | .fail _ => .panic "invalid memory address or nil pointer dereference".toList
    | .ok info => .ret (!info.IsDir)

/-- What is found at a path of the local file system. -/
inductive FileKind where
  | missing
  | regular (content : GoString)
  | directory
  deriving DecidableEq

/-- The state the downloads act on: the local files and the log of the URLs
for which `http.Get` was called. -/
structure World where
  fs : GoString → FileKind
  gets : List GoString

/-- The file system with `path` bound to `kind`. -/
def setFile (fs : GoString → FileKind) (path : GoString) (kind : FileKind) :
    GoString → FileKind :=
  fun q => if q = path then kind else fs q

/-- The result of `os.Stat(name)` in a world. -/
def os.Stat (w : World) (name : GoString) : os.StatResult :=
  match w.fs name with
  | .missing => .fail .ENOENT
  | .regular _ => .ok ⟨false⟩
  | .directory => .ok ⟨true⟩

namespace http

/-- Go `http.Response`, with the fields the program reads. -/
structure Response where
  StatusCode : Int
  Status : GoString
  Body : GoString
  deriving DecidableEq

end http

/-- What the environment answers during one call of `downloadFile`: the error
of `os.Create` if it fails, the result of `http.Get`, and the failure of
`io.Copy` if it fails (the bytes written before the error, and the error). -/
structure Env where
  createErr : Option GoError
  getResult : Except GoError http.Response
  copyErr : Option (GoString × GoError)

/-- Go `os.Create(name)`: fails on a directory and when the environment says
so, otherwise creates the file or truncates it. -/
def os.Create (env : Env) (w : World) (name : GoString) : Except GoError World :=
  match w.fs name with
  | .directory => .error (.lib "is a directory".toList)
  | _ =>
    match env.createErr with
    | some err => .error err
    | none => .ok { w with fs := setFile w.fs name (.regular []) }

/-- The file name `downloadFile` extracts from the URL (lines 117-120). -/
def localFileName (url : GoString) : GoString :=
  let filename := filepath.Base url
  if filename = ".".toList ∨ filename = "/".toList then "downloaded_file".toList else filename

/-- The variable `outputPath` of `downloadFile`. -/
def outputPath (url outputDir : GoString) : GoString :=
  filepath.Join outputDir (localFileName url)

/-- Go `downloadFile`: the returned error (`none` for nil), or a panic, and the
world it leaves. -/
def downloadFile (env : Env) (url outputDir : GoString) (w : World) :
    Outcome (Option GoError) × World :=
  match fileExists (os.Stat w (outputPath url outputDir)) with
  | .panic msg => (.panic msg, w)
  | .ret true => (.ret none, w)
  | .ret false =>
    match os.Create env w (outputPath url outputDir) with
    | .error err => (.ret (some err), w)
    | .ok w1 =>
      let w2 : World := { w1 with gets := w1.gets ++ [url] }
      match env.getResult with
      | .error err => (.ret (some err), w2)
      | .ok resp =>
        if resp.StatusCode ≠ 200 then (.ret (some (.httpStatus resp.Status)), w2)
        else
          match env.copyErr with
          | some (written, err) =>
            (.ret (some err),
              { w2 with fs := setFile w2.fs (outputPath url outputDir) (.regular written) })
          | none =>
            (.ret none,
              { w2 with fs := setFile w2.fs (outputPath url outputDir) (.regular resp.Body) })

/-! ## `ParseDirectory` and the start of `main` -/

/-- Lines 27-29 of `ParseDirectory`: make `u.Path` end with `/`. -/
def ensureSlash (u : url.URL) : url.URL :=
  if !strings.HasSuffix u.Path "/".toList then { u with Path := u.Path ++ "/".toList } else u

/-- Go `ParseDirectory`.  `Get` is `http.Get` and `Parse` is `html.Parse`.  The
function changes `u.Path` through the pointer, so the URL is returned as well. -/
def ParseDirectory (Get : GoString → Except GoString http.Response)
    (Parse : GoString → Except GoError html.Node) (u : url.URL) :
    Except GoError (List GoString) × url.URL :=
  let u := ensureSlash u
  match Get (url.String u) with
  | .error err => (.error (.requestFailed err), u)
  | .ok resp =>
    if resp.StatusCode ≠ 200 then (.error (.statusCode resp.StatusCode), u)
    else (parseHTML Parse resp.Body, u)

/-- The values fixed when `main` reaches its loop. -/
structure Config where
  maxGoroutines : Nat
  baseURL : url.URL
  output : GoString

/-- How `main` proceeds up to line 179: it ends the process with an exit code,
returns, panics, or enters the download loop with the parsed paths. -/
inductive MainStart where
  | exit (code : Nat)
  | returned
  | panic
  | loop (cfg : Config) (paths : List GoString)

/-- Lines 162-179 of `main`.  `atoi` is the result of `strconv.Atoi(*thread)`
and `ensureDir` the error of `EnsureDir(*output)`. -/
def mainStart (Get : GoString → Except GoString http.Response)
    (Parse : GoString → Except GoError html.Node) (baseURL : url.URL) (output : GoString)
    (atoi : Except GoString Int) (ensureDir : Option GoError) : MainStart :=
  match ParseDirectory Get Parse baseURL with
  | (.error _, _) => .exit 1
  | (.ok paths, baseURL) =>
    match atoi with
    | .error _ => .returned
    | .ok maxGoroutines =>
      match ensureDir with
      | some _ => .panic
      | none =>
        -- `make(chan struct{}, n)` panics on a negative size
        if maxGoroutines < 0 then .panic
        else .loop ⟨maxGoroutines.toNat, baseURL, output⟩ paths

/-! ## The download loop of `main` as a transition system -/

/-- Where a download goroutine stands.  `ok` records whether `downloadFile`
returned a nil error; otherwise the goroutine is panicking and its deferred
function still runs. -/
inductive Phase where
  /-- Started; `downloadFile` has not returned yet. -/
  | running
  /-- The call of `downloadFile` has returned; the deferred function has not run. -/
  | returned (ok : Bool)
  /-- The deferred function has received from `semaphore`. -/
  | released (ok : Bool)
  /-- The deferred function has called `wg.Done()`: the goroutine has finished. -/
  | done (ok : Bool)
  deriving DecidableEq

/-- A download goroutine: the URL it was started with and its phase. -/
structure Goroutine where
  url : GoString
  phase : Phase
  deriving DecidableEq

/-- Where `main` stands in lines 181-198. -/
inductive MainPc where
  /-- At the head of the `for` loop, or at `wg.Wait()` once the range is exhausted. -/
  | loop
  /-- After `wg.Add(1)`, before the send on `semaphore`. -/
  | added
  /-- After the send on `semaphore`, before the `go` statement. -/
  | acquired
  /-- The call `wg.Wait()` has returned and `main` has returned. -/
  | exited
  deriving DecidableEq

/-- A state of the download loop. -/
structure State where
  pc : MainPc
  /-- The paths the range loop has not finished with; the head is the current one. -/
  pending : List GoString
  /-- The number of elements in the buffer of the channel `semaphore`. -/
  semaphore : Nat
  /-- The counter of the wait group. -/
  wg : Nat
  /-- The goroutines started so far, in the order they were started. -/
  tasks : List Goroutine
  world : World
  /-- A panic has ended the process. -/
  crashed : Bool

/-- One atomic step: of `main`, or of the goroutine with index `i`. -/
inductive Act where
  /-- The next statement of `main`. -/
  | main
  /-- Goroutine `i` executes `downloadFile`, the environment answering with `env`. -/
  | work (i : Nat) (env : Env)
  /-- Goroutine `i` executes `<-semaphore` in its deferred function. -/
  | release (i : Nat)
  /-- Goroutine `i` executes `wg.Done()` in its deferred function. -/
  | wgDone (i : Nat)
  /-- The panic of goroutine `i` reaches the top of its stack and ends the process. -/
  | crash (i : Nat)

/-- The string `fullURL.String()` for the path `p`. -/
def fullURL (cfg : Config) (p : GoString) : GoString :=
  url.String (url.ResolveReference cfg.baseURL (url.pathRef p))

/-- The state in which `main` enters its loop. -/
def initState (paths : List GoString) (w : World) : State :=
  ⟨.loop, paths, 0, 0, [], w, false⟩

/-- The step of `main`.  A send on a full channel and `wg.Wait()` on a
non-zero counter block: there is no step. -/
def stepMain (cfg : Config) (s : State) : Option State :=
  match s.pc, s.pending with
  | .loop, _ :: _ => some { s with wg := s.wg + 1, pc := .added }
  | .loop, [] => if s.wg = 0 then some { s with pc := .exited } else none
  | .added, _ =>
    if s.semaphore < cfg.maxGoroutines then
      some { s with semaphore := s.semaphore + 1, pc := .acquired }
    else none
  | .acquired, p :: ps =>
    some { s with tasks := s.tasks ++ [⟨fullURL cfg p, .running⟩], pending := ps, pc := .loop }
  | .acquired, [] => none
  | .exited, _ => none

/-- The step of goroutine `i`. -/
def stepTask (cfg : Config) (s : State) (i : Nat) (t : Goroutine) : Act → Option State
  | .work _ env =>
    match t.phase with
    | .running =>
      let r := downloadFile env t.url cfg.output s.world
      some { s with
        world := r.2
        tasks := s.tasks.set i ⟨t.url, .returned (decide (r.1 = .ret none))⟩ }
    | _ => none
  | .release _ =>
    match t.phase with
    | .returned ok =>
      if s.semaphore = 0 then none
      else some { s with
        semaphore := s.semaphore - 1
        tasks := s.tasks.set i ⟨t.url, .released ok⟩ }
    | _ => none
  | .wgDone _ =>
    match t.phase with
    | .released ok =>
      -- `wg.Done()` on a zero counter panics
      if s.wg = 0 then some { s with crashed := true }
      else some { s with wg := s.wg - 1, tasks := s.tasks.set i ⟨t.url, .done ok⟩ }
    | _ => none
  | .crash _ =>
    match t.phase with
    | .done false => some { s with crashed := true }
    | _ => none
  | .main => none

/-- The index of the goroutine an action belongs to. -/
def Act.index : Act → Option Nat
  | .main => none
  | .work i _ => some i
  | .release i => some i
  | .wgDone i => some i
  | .crash i => some i

/-- One step of the system; `none` when the action is not enabled.  Nothing
runs once the process has ended. -/
def step (cfg : Config) (s : State) (a : Act) : Option State :=
  if s.crashed = true ∨ s.pc = .exited then none
  else
    match a.index with
    | none => stepMain cfg s
    | some i =>
      match s.tasks.get? i with
      | none => none
      | some t => stepTask cfg s i t a

/-- The state reached by a sequence of actions, if each is enabled in turn. -/
def run (cfg : Config) : State → List Act → Option State
  | s, [] => some s
  | s, a :: rest =>
    match step cfg s a with
    | none => none
    | some s' => run cfg s' rest

/-- A state reachable from the start of the loop over `paths` in world `w`. -/
def Reachable (cfg : Config) (paths : List GoString) (w : World) (s : State) : Prop :=
  ∃ acts, run cfg (initState paths w) acts = some s

/-- Has the goroutine been started without having released its slot yet? -/
def Goroutine.holdsSlot (t : Goroutine) : Bool :=
  match t.phase with
  | .running => true
  | .returned _ => true
  | _ => false

/-- The number of goroutines that have been started and have not yet released
their slot. -/
def active (s : State) : Nat := s.tasks.countP Goroutine.holdsSlot

/-- Has the goroutine finished, slot released and `wg.Done()` called? -/
def Goroutine.finished (t : Goroutine) : Bool :=
  match t.phase with
  | .done _ => true
  | _ => false

/-- Did `downloadFile` return a nil error in this goroutine? -/
def Goroutine.succeeded (t : Goroutine) : Bool :=
  match t.phase with
  | .returned ok => ok
  | .released ok => ok
  | .done ok => ok
  | .running => false

/-- An environment in which every call succeeds with status 200. -/
def okEnv (body : String) : Env :=
  ⟨none, .ok ⟨200, "200 OK".toList, body.toList⟩, none⟩

/-- A file system holding the regular file `downloads/a.txt` and nothing else. -/
def fsWithA : GoString → FileKind :=
  setFile (fun _ => .missing) "downloads/a.txt".toList (.regular "old".toList)

/-- The configuration of the scenarios: base `http://example.com/files/`,
output directory `./downloads`. -/
def exampleCfg (n : Nat) : Config := ⟨n, exampleBase, "./downloads".toList⟩

/-- The steps of the system as a relation between states: one rule for each
way `step` yields a state. -/
inductive StepRel (cfg : Config) : State → State → Prop where
  | add (s : State) (p : GoString) (ps : List GoString) :
      s.pc = .loop → s.pending = p :: ps →
      StepRel cfg s { s with wg := s.wg + 1, pc := .added }
  | exit (s : State) :
      s.pc = .loop → s.pending = [] → s.wg = 0 →
      StepRel cfg s { s with pc := .exited }
  | acquire (s : State) :
      s.pc = .added → s.semaphore < cfg.maxGoroutines →
      StepRel cfg s { s with semaphore := s.semaphore + 1, pc := .acquired }
  | spawn (s : State) (p : GoString) (ps : List GoString) :
      s.pc = .acquired → s.pending = p :: ps →
      StepRel cfg s
        { s with tasks := s.tasks ++ [⟨fullURL cfg p, .running⟩], pending := ps, pc := .loop }
  | work (s : State) (i : Nat) (env : Env) (url : GoString) :
      s.tasks.get? i = some ⟨url, .running⟩ →
      StepRel cfg s
        { s with
          world := (downloadFile env url cfg.output s.world).2
          tasks := s.tasks.set i
            ⟨url, .returned (decide ((downloadFile env url cfg.output s.world).1 = .ret none))⟩ }
  | release (s : State) (i : Nat) (url : GoString) (ok : Bool) :
      s.tasks.get? i = some ⟨url, .returned ok⟩ → s.semaphore ≠ 0 →
      StepRel cfg s
        { s with semaphore := s.semaphore - 1, tasks := s.tasks.set i ⟨url, .released ok⟩ }
  | wgPanic (s : State) (i : Nat) (url : GoString) (ok : Bool) :
      s.tasks.get? i = some ⟨url, .released ok⟩ → s.wg = 0 →
      StepRel cfg s { s with crashed := true }
  | wgDone (s : State) (i : Nat) (url : GoString) (ok : Bool) :
      s.tasks.get? i = some ⟨url, .released ok⟩ → s.wg ≠ 0 →
      StepRel cfg s { s with wg := s.wg - 1, tasks := s.tasks.set i ⟨url, .done ok⟩ }
  | crash (s : State) (i : Nat) (url : GoString) :
      s.tasks.get? i = some ⟨url, .done false⟩ →
      StepRel cfg s { s with crashed := true }

/-- The slots in use: every goroutine holding a slot, and `main` between its
send on `semaphore` and the `go` statement, account for one element of the
channel buffer, which never holds more than its capacity. -/
def SlotInv (cfg : Config) (s : State) : Prop :=
  active s + (if s.pc = .acquired then 1 else 0) = s.semaphore ∧
    s.semaphore ≤ cfg.maxGoroutines

/-- The wait group: its counter is the number of goroutines that have not
called `wg.Done()`, plus one while `main` is between `wg.Add(1)` and the `go`
statement; the goroutines started so far are those of the paths already
iterated; and `main` has returned only with the range exhausted and the
counter at zero. -/
def BarrierInv (cfg : Config) (paths : List GoString) (s : State) : Prop :=
  (s.tasks.countP fun t => !t.finished) + (if s.pc = .added ∨ s.pc = .acquired then 1 else 0)
      = s.wg ∧
    s.tasks.map Goroutine.url ++ s.pending.map (fullURL cfg) = paths.map (fullURL cfg) ∧
    (s.pc = .exited → s.pending = [] ∧ s.wg = 0)

/-- Every goroutine in which `downloadFile` returned nil has a regular file at
its output path. -/
def DoneInv (cfg : Config) (s : State) : Prop :=
  ∀ t ∈ s.tasks, t.succeeded = true →
    ∃ c, s.world.fs (outputPath t.url cfg.output) = .regular c

/-- The state in which the run of scenario C ends: `main` has returned, the one
goroutine has finished without error, the directory and the log are as at the
start. -/
def scenarioCEnd : State :=
  ⟨.exited, [], 0, 0, [⟨"http://example.com/files/a.txt".toList, .done true⟩],
    ⟨fsWithA, []⟩, false⟩

/-- The schedule of scenario C: `main` adds, acquires and starts the goroutine,
the goroutine runs `downloadFile`, releases its slot and calls `wg.Done()`,
and `main` passes `wg.Wait()`. -/
def scenarioCActs : List Act :=
  [.main, .main, .main, .work 0 (okEnv "new"), .release 0, .wgDone 0, .main]

/-- A state of the loop over `a.txt` and `b.txt` with capacity 1: the goroutine
of `a.txt` is running and holds the only slot, `main` is at the head of the
loop with `b.txt` pending. -/
def oneRunning : State :=
  ⟨.loop, ["b.txt".toList], 1, 1, [⟨"http://example.com/files/a.txt".toList, .running⟩],
    ⟨fsWithA, []⟩, false⟩

/-- A state of the loop over `a.txt` alone: the goroutine is running and `main`
is at `wg.Wait()`. -/
def mainWaiting : State :=
  ⟨.loop, [], 1, 1, [⟨"http://example.com/files/a.txt".toList, .running⟩],
    ⟨fsWithA, []⟩, false⟩

/-! ## Lemmas on the matcher -/

namespace regexp

theorem matchK_class (rs : List (Char × Char)) (st : Bool) (s : GoString)
    (k : Bool → GoString → Bool) :
    matchK (.CharClass rs) st s k = true ↔
      ∃ c t, s = c :: t ∧ inClass rs c = true ∧ k false t = true := by
  cases s with
  | nil => simp [matchK]
  | cons c t =>
    simp only [matchK, Bool.and_eq_true]
    constructor
    · intro h
      exact ⟨c, t, rfl, h⟩
    · rintro ⟨c1, t1, heq, h⟩
      cases heq
      exact h

theorem plusLoop_class (rs : List (Char × Char)) (k : Bool → GoString → Bool) :
    ∀ (n : Nat) (st : Bool) (s : GoString),
      plusLoop (matchK (.CharClass rs)) n st s k = true ↔
        ∃ a r, s = a ++ r ∧ a ≠ [] ∧ a.length ≤ n ∧ (∀ c ∈ a, inClass rs c = true) ∧
          k false r = true := by
  intro n
  induction n with
  | zero =>
    intro st s
    simp only [plusLoop, Bool.false_eq_true, false_iff]
    rintro ⟨a, r, -, hne, hlen, -⟩
    exact hne (List.length_eq_zero.mp (Nat.le_zero.mp hlen))
  | succ n ih =>
    intro st s
    simp only [plusLoop, matchK_class, Bool.or_eq_true, ih]
    constructor
    · rintro ⟨c, t, rfl, hc, hk | ⟨a, r, rfl, hne, hlen, hall, hk⟩⟩
      · exact ⟨[c], t, rfl, by simp, by simp, by simpa using hc, hk⟩
      · refine ⟨c :: a, r, rfl, by simp, by simpa using hlen, ?_, hk⟩
        intro x hx
        rcases List.mem_cons.mp hx with rfl | hx
        · exact hc
        · exact hall x hx
    · rintro ⟨a, r, rfl, hne, hlen, hall, hk⟩
      cases a with
      | nil => exact absurd rfl hne
      | cons c a =>
        refine ⟨c, a ++ r, rfl, hall c (List.mem_cons_self _ _), ?_⟩
        by_cases ha : a = []
        · subst ha
          exact Or.inl hk
        · exact Or.inr ⟨a, r, rfl, ha, by simpa using hlen,
            fun x hx => hall x (List.mem_cons_of_mem _ hx), hk⟩

theorem repeatLoop_class (rs : List (Char × Char)) (k : Bool → GoString → Bool) :
    ∀ (mx mn : Nat) (st : Bool) (s : GoString),
      repeatLoop (matchK (.CharClass rs)) mn mx st s k = true ↔
        ∃ a r, s = a ++ r ∧ mn ≤ a.length ∧ a.length ≤ mx ∧ (∀ c ∈ a, inClass rs c = true) ∧
          k (st && a.isEmpty) r = true := by
  intro mx
  induction mx with
  | zero =>
    intro mn st s
    cases mn with
    | zero =>
      simp only [repeatLoop]
      constructor
      · intro hk
        exact ⟨[], s, rfl, le_refl _, le_refl _, by simp, by simpa using hk⟩
      · rintro ⟨a, r, rfl, -, hlen, -, hk⟩
        have ha : a = [] := List.length_eq_zero.mp (Nat.le_zero.mp hlen)
        subst ha
        simpa using hk
    | succ mn =>
      simp only [repeatLoop, Bool.false_eq_true, false_iff]
      rintro ⟨a, r, -, h1, h2, -⟩
      omega
  | succ mx ih =>
    intro mn st s
    cases mn with
    | zero =>
      simp only [repeatLoop, Bool.or_eq_true, matchK_class, ih]
      constructor
      · rintro (hk | ⟨c, t, rfl, hc, a, r, rfl, -, hlen, hall, hk⟩)
        · exact ⟨[], s, rfl, by simp, by simp, by simp, by simpa using hk⟩
        · refine ⟨c :: a, r, rfl, by simp, by simpa using hlen, ?_, by simpa using hk⟩
          intro x hx
          rcases List.mem_cons.mp hx with rfl | hx
          · exact hc
          · exact hall x hx
      · rintro ⟨a, r, rfl, -, hlen, hall, hk⟩
        cases a with
        | nil => exact Or.inl (by simpa using hk)
        | cons c a =>
          exact Or.inr ⟨c, a ++ r, rfl, hall c (List.mem_cons_self _ _), a, r, rfl,
            Nat.zero_le _, by simpa using hlen,
            fun x hx => hall x (List.mem_cons_of_mem _ hx), by simpa using hk⟩
    | succ mn =>
      simp only [repeatLoop, matchK_class, ih]
      constructor
      · rintro ⟨c, t, rfl, hc, a, r, rfl, hmin, hlen, hall, hk⟩
        refine ⟨c :: a, r, rfl, by simpa using hmin, by simpa using hlen, ?_, by simpa using hk⟩
        intro x hx
        rcases List.mem_cons.mp hx with rfl | hx
        · exact hc
        · exact hall x hx
      · rintro ⟨a, r, rfl, hmin, hlen, hall, hk⟩
        cases a with
        | nil => simp at hmin
        | cons c a =>
          exact ⟨c, a ++ r, rfl, hall c (List.mem_cons_self _ _), a, r, rfl,
            by simpa using hmin, by simpa using hlen,
            fun x hx => hall x (List.mem_cons_of_mem _ hx), by simpa using hk⟩

end regexp

theorem char_le_le_iff (a c : Char) : (a ≤ c ∧ c ≤ a) ↔ c = a :=
  ⟨fun h => le_antisymm h.2 h.1, fun h => by subst h; exact ⟨le_refl _, le_refl _⟩⟩

theorem inClass_name_iff (c : Char) : regexp.inClass nameClass c = true ↔ isNameChar c := by
  simp only [regexp.inClass, nameClass, List.any_cons, List.any_nil, Bool.or_false,
    Bool.or_eq_true, Bool.and_eq_true, decide_eq_true_eq, isNameChar, isAsciiLetter,
    isAsciiDigit, char_le_le_iff]
  tauto

theorem inClass_alnum_iff (c : Char) : regexp.inClass extClass c = true ↔ isAsciiAlnum c := by
  simp only [regexp.inClass, extClass, List.any_cons, List.any_nil, Bool.or_false,
    Bool.or_eq_true, Bool.and_eq_true, decide_eq_true_eq, isAsciiAlnum, isAsciiLetter,
    isAsciiDigit]
  tauto

theorem searchFrom_pattern_false (s : GoString) : regexp.searchFrom pattern false s = false := by
  induction s with
  | nil => simp [regexp.searchFrom, pattern, regexp.matchK]
  | cons c t ih =>
    rw [regexp.searchFrom, ih]
    simp [pattern, regexp.matchK]

/-- The regular expression of `parseHTML` matches exactly the strings of the
file-name grammar. -/
theorem matchString_pattern_iff (h : GoString) :
    regexp.MatchString pattern h = true ↔ FileNameGrammar h := by
  have hstart : regexp.MatchString pattern h
      = regexp.matchK pattern true h (fun _ _ => true) := by
    cases h with
    | nil => rfl
    | cons c t => simp [regexp.MatchString, regexp.searchFrom, searchFrom_pattern_false]
  rw [hstart]
  simp only [pattern, regexp.matchK, Bool.true_and, regexp.plusLoop_class]
  constructor
  · rintro ⟨name, r, rfl, hne, -, hname, hk⟩
    cases r with
    | nil => simp [regexp.matchK] at hk
    | cons d r =>
      simp only [regexp.matchK, Bool.and_eq_true, decide_eq_true_eq,
        regexp.repeatLoop_class] at hk
      obtain ⟨rfl, ext, r2, rfl, h1, h10, hext, hend⟩ := hk
      simp only [Bool.and_true, List.isEmpty_iff] at hend
      obtain ⟨rfl, -⟩ := hend
      refine ⟨name, ext, by simp, hne, fun c hc => (inClass_name_iff c).mp (hname c hc),
        h1, h10, fun c hc => (inClass_alnum_iff c).mp (hext c hc)⟩
  · rintro ⟨name, ext, rfl, hne, hname, h1, h10, hext⟩
    refine ⟨name, '.' :: ext, rfl, hne, by simp; omega,
      fun c hc => (inClass_name_iff c).mpr (hname c hc), ?_⟩
    simp only [regexp.matchK, Bool.and_eq_true, decide_eq_true_eq, regexp.repeatLoop_class,
      true_and]
    exact ⟨ext, [], by simp, h1, h10, fun c hc => (inClass_alnum_iff c).mpr (hext c hc),
      by simp⟩

/-! ## The classifier and the grammar -/

theorem isNameChar_of_alnum {c : Char} (h : isAsciiAlnum c) : isNameChar c := by
  unfold isAsciiAlnum at h
  unfold isNameChar
  tauto

theorem isNameChar_ne_slash {c : Char} (h : isNameChar c) : c ≠ '/' := by
  rintro rfl
  revert h
  decide

theorem isNameChar_ne_colon {c : Char} (h : isNameChar c) : c ≠ ':' := by
  rintro rfl
  revert h
  decide

theorem grammar_chars {h : GoString} (hg : FileNameGrammar h) : ∀ c ∈ h, isNameChar c := by
  obtain ⟨name, ext, rfl, -, hname, -, -, hext⟩ := hg
  intro c hc
  rcases List.mem_append.mp hc with hc | hc
  · exact hname c hc
  · rcases List.mem_cons.mp hc with rfl | hc
    · decide
    · exact isNameChar_of_alnum (hext c hc)

theorem hasPrefix_mem {s pre : GoString} (h : strings.HasPrefix s pre = true) :
    ∀ c ∈ pre, c ∈ s := by
  intro c hc
  have hp : pre <+: s := List.isPrefixOf_iff_prefix.mp h
  exact hp.subset hc

theorem hasSuffix_mem {s suf : GoString} (h : strings.HasSuffix s suf = true) :
    ∀ c ∈ suf, c ∈ s := by
  intro c hc
  have hp : suf <:+ s := List.isSuffixOf_iff_suffix.mp h
  exact hp.subset hc

theorem no_slash_passes {h : GoString} (hne : h ≠ []) (hs : '/' ∉ h) : passesRejectRules h := by
  refine ⟨hne, ?_, ?_, ?_, ?_, ?_, ?_⟩
  · rintro rfl
    exact hs (by decide)
  · rintro rfl
    exact hs (by decide)
  · cases hp : strings.HasPrefix h "http://".toList
    · rfl
    · exact absurd (hasPrefix_mem hp '/' (by decide)) hs
  · cases hp : strings.HasPrefix h "https://".toList
    · rfl
    · exact absurd (hasPrefix_mem hp '/' (by decide)) hs
  · cases hp : strings.HasPrefix h "//".toList
    · rfl
    · exact absurd (hasPrefix_mem hp '/' (by decide)) hs
  · cases hp : strings.HasSuffix h "/".toList
    · rfl
    · exact absurd (hasSuffix_mem hp '/' (by decide)) hs

theorem grammar_passes {h : GoString} (hg : FileNameGrammar h) : passesRejectRules h := by
  have hchars := grammar_chars hg
  apply no_slash_passes
  · obtain ⟨name, ext, rfl, -⟩ := hg
    simp
  · intro hmem
    exact isNameChar_ne_slash (hchars _ hmem) rfl

theorem classify_eq_match {h : GoString} (hp : passesRejectRules h) :
    classify h = regexp.MatchString pattern h := by
  obtain ⟨h1, h2, h3, h4, h5, h6, h7⟩ := hp
  unfold classify
  rw [if_neg (by tauto), h4, h5, h6, h7]
  simp

theorem classify_true_match {h : GoString} (hc : classify h = true) :
    regexp.MatchString pattern h = true := by
  unfold classify at hc
  split at hc
  · exact absurd hc (by simp)
  · split at hc
    · exact absurd hc (by simp)
    · split at hc
      · exact absurd hc (by simp)
      · exact hc

theorem classify_iff_grammar (h : GoString) : classify h = true ↔ FileNameGrammar h := by
  constructor
  · intro hc
    exact (matchString_pattern_iff h).mp (classify_true_match hc)
  · intro hg
    rw [classify_eq_match (grammar_passes hg)]
    exact (matchString_pattern_iff h).mpr hg

/-- Claim C1.  The classifier of `parseHTML` accepts an `href` exactly when the
whole string matches the file-name grammar (one or more letters, digits,
underscores, hyphens or dots, a literal dot, 1 to 10 ASCII alphanumerics); and
on a string of the grammar none of the reject rules (empty, `../`, `./`,
`http://`, `https://`, `//` prefix, trailing `/`) fires. -/
theorem C1_classifier_iff_grammar (h : GoString) :
    (classify h = true ↔ FileNameGrammar h) ∧ (FileNameGrammar h → passesRejectRules h) :=
  ⟨classify_iff_grammar h, grammar_passes⟩

/-- Claim C1 at `report.pdf`: it is in the grammar, it is accepted, and no
reject rule fires on it. -/
theorem C1_classifier_iff_grammar_witness :
    FileNameGrammar "report.pdf".toList ∧ classify "report.pdf".toList = true ∧
      passesRejectRules "report.pdf".toList :=
  have hg : FileNameGrammar "report.pdf".toList :=
    ⟨"report".toList, "pdf".toList, by decide, by decide, by decide, by decide, by decide,
      by decide⟩
  ⟨hg, (C1_classifier_iff_grammar _).1.mpr hg, (C1_classifier_iff_grammar _).2 hg⟩

/-! ## `parseHTML` lists the accepted hrefs in document order -/

theorem foldl_hrefStep (attrs : List html.Attribute) (paths : List GoString) :
    attrs.foldl hrefStep paths = paths ++
      (((attrs.filter fun attr => decide (attr.Key = "href".toList)).map
        fun attr => attr.Val).filter classify) := by
  induction attrs generalizing paths with
  | nil => simp
  | cons a attrs ih =>
    rw [List.foldl_cons, ih]
    by_cases hk : a.Key = "href".toList
    · have hf : List.filter (fun attr : html.Attribute => decide (attr.Key = "href".toList))
          (a :: attrs) = a :: List.filter (fun attr => decide (attr.Key = "href".toList)) attrs :=
        List.filter_cons_of_pos (by simpa using hk)
      rw [hf, List.map_cons]
      unfold hrefStep
      rw [if_pos hk]
      by_cases hc : classify a.Val = true
      · rw [if_pos hc, List.filter_cons_of_pos hc]
        simp
      · rw [if_neg hc, List.filter_cons_of_neg hc]
    · have hf : List.filter (fun attr : html.Attribute => decide (attr.Key = "href".toList))
          (a :: attrs) = List.filter (fun attr => decide (attr.Key = "href".toList)) attrs :=
        List.filter_cons_of_neg (by simpa using hk)
      rw [hf]
      unfold hrefStep
      rw [if_neg hk]

theorem visitNode_eq (ty : html.NodeType) (data : GoString) (attrs : List html.Attribute)
    (paths : List GoString) :
    visitNode ty data attrs paths = paths ++ (hrefsOf (ty, data, attrs)).filter classify := by
  unfold visitNode hrefsOf
  by_cases h : ty = .ElementNode ∧ data = "a".toList
  · rw [if_pos h, if_pos h, foldl_hrefStep]
  · rw [if_neg h, if_neg h]
    simp

theorem childLoop_eq (n : html.Node) :
    ∀ paths : List GoString,
      childLoop n paths = paths ++ ((preorder n).flatMap hrefsOf).filter classify := by
  induction n with
  | nil => intro paths; simp [childLoop, preorder]
  | node ty data attrs fc ns ihc ihs =>
    intro paths
    rw [childLoop, ihs, ihc, visitNode_eq]
    simp [preorder, List.flatMap_cons, List.flatMap_append, List.filter_append, List.append_assoc]

theorem f_eq (doc : html.Node) (paths : List GoString) :
    f doc paths = paths ++ (anchorHrefs doc).filter classify := by
  cases doc with
  | nil => simp [f, anchorHrefs, documentOrder]
  | node ty data attrs fc ns =>
    rw [f, childLoop_eq, visitNode_eq]
    simp [anchorHrefs, documentOrder, List.flatMap_cons, List.filter_append, List.append_assoc]

theorem parseHTML_ok (Parse : GoString → Except GoError html.Node) (body : GoString)
    (doc : html.Node) (hp : Parse body = .ok doc) :
    parseHTML Parse body = .ok ((anchorHrefs doc).filter classify) := by
  unfold parseHTML
  rw [hp]
  simp [f_eq]

theorem parseHTML_mem_classify {Parse : GoString → Except GoError html.Node} {body : GoString}
    {paths : List GoString} (hp : parseHTML Parse body = .ok paths) :
    ∀ h ∈ paths, classify h = true := by
  unfold parseHTML at hp
  cases hd : Parse body with
  | error e => rw [hd] at hp; cases hp
  | ok doc =>
    rw [hd] at hp
    simp only [Except.ok.injEq] at hp
    subst hp
    intro h hmem
    rw [f_eq] at hmem
    simp only [List.nil_append, List.mem_filter] at hmem
    exact hmem.2

/-- Claim C2.  On a document tree that `html.Parse` returned, `parseHTML`
returns, with no error, the `href` values of the `a` elements listed in
depth-first pre-order and filtered by the classifier: it is a subsequence of
the document-order list (order kept, nothing sorted), each accepted `href`
occurs as often as among the anchors (duplicates kept), a node without an
`href` attribute adds nothing, and a tree with no accepted `href` gives the
empty sequence. -/
theorem C2_parseHTML_document_order (Parse : GoString → Except GoError html.Node)
    (body : GoString) (doc : html.Node) (hp : Parse body = .ok doc) :
    parseHTML Parse body = .ok ((anchorHrefs doc).filter classify) ∧
    ((anchorHrefs doc).filter classify).Sublist (anchorHrefs doc) ∧
    (∀ h, classify h = true →
      ((anchorHrefs doc).filter classify).count h = (anchorHrefs doc).count h) ∧
    (∀ ty data attrs paths, (∀ a ∈ attrs, a.Key ≠ "href".toList) →
      visitNode ty data attrs paths = paths) ∧
    ((∀ h ∈ anchorHrefs doc, classify h = false) → parseHTML Parse body = .ok []) := by
  refine ⟨parseHTML_ok Parse body doc hp, List.filter_sublist _, ?_, ?_, ?_⟩
  · intro h hc
    rw [List.count_filter hc]
  · intro ty data attrs paths hno
    rw [visitNode_eq]
    have hnil : (attrs.filter fun attr => decide (attr.Key = "href".toList)) = [] := by
      rw [List.filter_eq_nil_iff]
      intro a ha
      simpa using hno a ha
    have hrefs : hrefsOf (ty, data, attrs) = [] := by
      unfold hrefsOf
      split
      · rw [hnil]
        rfl
      · rfl
    rw [hrefs]
    simp
  · intro hnone
    rw [parseHTML_ok Parse body doc hp]
    have : (anchorHrefs doc).filter classify = [] := by
      rw [List.filter_eq_nil_iff]
      intro a ha
      simp [hnone a ha]
    rw [this]

/-- Claim C2 on scenario A: the four anchors `../`, `report.pdf`, `sub/` and
`https://x.com/a.zip` yield exactly `report.pdf`. -/
theorem C2_parseHTML_document_order_witness :
    parseHTML (fun _ => .ok scenarioA) [] = .ok ["report.pdf".toList] :=
  (C2_parseHTML_document_order (fun _ => .ok scenarioA) [] scenarioA rfl).1.trans
    (congrArg Except.ok (by decide))

/-! ## Rejected hrefs never reach the output -/

theorem classify_rejected {h : GoString}
    (hr : h = "".toList ∨ h = "../".toList ∨ h = "./".toList ∨
      strings.HasPrefix h "http://".toList = true ∨
      strings.HasPrefix h "https://".toList = true ∨
      strings.HasPrefix h "//".toList = true ∨
      strings.HasSuffix h "/".toList = true) : classify h = false := by
  unfold classify
  split
  · rfl
  · rename_i c1
    split
    · rfl
    · rename_i c2
      split
      · rfl
      · rename_i c3
        exfalso
        rcases hr with h1 | h1 | h1 | h1 | h1 | h1 | h1
        · exact c1 (by tauto)
        · exact c1 (by tauto)
        · exact c1 (by tauto)
        · apply c2
          rw [h1]
          simp
        · apply c2
          rw [h1]
          simp
        · apply c2
          rw [h1]
          simp
        · exact c3 h1

/-- Claim C3.  An `href` that is empty, `../`, `./`, begins with `http://`,
`https://` or `//`, or ends with `/`, is not an element of the sequence
`parseHTML` returns, whatever the document. -/
theorem C3_rejected_never_in_output (Parse : GoString → Except GoError html.Node)
    (body : GoString) (paths : List GoString) (h : GoString)
    (hr : h = "".toList ∨ h = "../".toList ∨ h = "./".toList ∨
      strings.HasPrefix h "http://".toList = true ∨
      strings.HasPrefix h "https://".toList = true ∨
      strings.HasPrefix h "//".toList = true ∨
      strings.HasSuffix h "/".toList = true)
    (hp : parseHTML Parse body = .ok paths) : h ∉ paths := by
  intro hmem
  have hc := parseHTML_mem_classify hp h hmem
  rw [classify_rejected hr] at hc
  exact absurd hc (by simp)

/-- Claim C3 on scenario A: `sub/` ends with `/` and is absent from the output. -/
theorem C3_rejected_never_in_output_witness :
    strings.HasSuffix "sub/".toList "/".toList = true ∧
      parseHTML (fun _ => .ok scenarioA) [] = .ok ["report.pdf".toList] ∧
      "sub/".toList ∉ ["report.pdf".toList] :=
  have hp : parseHTML (fun _ => .ok scenarioA) [] = .ok ["report.pdf".toList] :=
    (parseHTML_ok (fun _ => .ok scenarioA) [] scenarioA rfl).trans (congrArg Except.ok (by decide))
  ⟨by decide, hp,
    C3_rejected_never_in_output (fun _ => .ok scenarioA) [] _ "sub/".toList
      (Or.inr (Or.inr (Or.inr (Or.inr (Or.inr (Or.inr (by decide))))))) hp⟩

theorem beginsWithScheme_colon {h : GoString} (hs : BeginsWithScheme h) : ':' ∈ h := by
  obtain ⟨c, scheme, rest, rfl, -, -⟩ := hs
  simp

theorem classify_false_of_colon {h : GoString} (hc : ':' ∈ h) : classify h = false := by
  cases hcl : classify h
  · rfl
  · have hg := (classify_iff_grammar h).mp hcl
    exact absurd rfl (isNameChar_ne_colon (grammar_chars hg _ hc))

/-- Claim C4.  An `href` that begins with a URI scheme (an ASCII letter, then
letters, digits, `+`, `-` or `.`, then `:`), whatever the scheme, or that
begins with `//`, is rejected by the classifier and is never in the output of
`parseHTML`. -/
theorem C4_absolute_url_rejected (Parse : GoString → Except GoError html.Node)
    (body : GoString) (paths : List GoString) (h : GoString)
    (hr : BeginsWithScheme h ∨ strings.HasPrefix h "//".toList = true) :
    classify h = false ∧ (parseHTML Parse body = .ok paths → h ∉ paths) := by
  have hc : classify h = false := by
    rcases hr with hs | hs
    · exact classify_false_of_colon (beginsWithScheme_colon hs)
    · exact classify_rejected (by tauto)
  refine ⟨hc, fun hp hmem => ?_⟩
  have := parseHTML_mem_classify hp h hmem
  rw [hc] at this
  exact absurd this (by simp)

/-- Claim C4 on a listing with `ftp:`, `file:`, `mailto:` and `//` links: the
`ftp` link begins with a scheme and only `ok.txt` is returned. -/
theorem C4_absolute_url_rejected_witness :
    BeginsWithScheme "ftp://host/a.zip".toList ∧
      parseHTML (fun _ => .ok externalLinks) [] = .ok ["ok.txt".toList] ∧
      classify "ftp://host/a.zip".toList = false ∧
      "ftp://host/a.zip".toList ∉ ["ok.txt".toList] :=
  have hs : BeginsWithScheme "ftp://host/a.zip".toList :=
    ⟨'f', "tp".toList, "//host/a.zip".toList, by decide, by decide, by decide⟩
  have hp : parseHTML (fun _ => .ok externalLinks) [] = .ok ["ok.txt".toList] :=
    (parseHTML_ok (fun _ => .ok externalLinks) [] externalLinks rfl).trans (congrArg Except.ok (by decide))
  have hc := C4_absolute_url_rejected (fun _ => .ok externalLinks) [] ["ok.txt".toList]
    "ftp://host/a.zip".toList (Or.inl hs)
  ⟨hs, hp, hc.1, hc.2 hp⟩

/-! ## The status check of `ParseDirectory` -/

theorem parseDirectory_ok (Get : GoString → Except GoString http.Response)
    (Parse : GoString → Except GoError html.Node) (u : url.URL) (resp : http.Response)
    (hget : Get (url.String (ensureSlash u)) = .ok resp) (h200 : resp.StatusCode = 200) :
    ParseDirectory Get Parse u = (parseHTML Parse resp.Body, ensureSlash u) := by
  unfold ParseDirectory
  simp only [hget, h200]
  simp

theorem parseDirectory_status (Get : GoString → Except GoString http.Response)
    (Parse : GoString → Except GoError html.Node) (u : url.URL) (resp : http.Response)
    (hget : Get (url.String (ensureSlash u)) = .ok resp) (h200 : resp.StatusCode ≠ 200) :
    ParseDirectory Get Parse u = (.error (.statusCode resp.StatusCode), ensureSlash u) := by
  unfold ParseDirectory
  simp only [hget]
  rw [if_pos h200]

/-- Claim C5, as amended.  In `ParseDirectory` the status code 200, and only
it, is accepted: on 200 the body is handed to the HTML parser; on every other
status code, the other 2xx codes included, `ParseDirectory` returns the error
that carries the status code and no file list, and `main` exits with code 1
before its download loop. -/
theorem C5_only_status_200_accepted (Get : GoString → Except GoString http.Response)
    (Parse : GoString → Except GoError html.Node) (u : url.URL) (resp : http.Response)
    (hget : Get (url.String (ensureSlash u)) = .ok resp) :
    (resp.StatusCode = 200 → (ParseDirectory Get Parse u).1 = parseHTML Parse resp.Body) ∧
    (resp.StatusCode ≠ 200 →
      (ParseDirectory Get Parse u).1 = .error (.statusCode resp.StatusCode) ∧
      ∀ output atoi ensureDir, mainStart Get Parse u output atoi ensureDir = .exit 1) := by
  constructor
  · intro h200
    rw [parseDirectory_ok Get Parse u resp hget h200]
  · intro h200
    have hpd := parseDirectory_status Get Parse u resp hget h200
    refine ⟨by rw [hpd], fun output atoi ensureDir => ?_⟩
    unfold mainStart
    rw [hpd]

/-- Claim C5 at status 404 (scenario D): the error carries 404 and `main` exits
with code 1 without entering the download loop. -/
theorem C5_only_status_200_accepted_witness :
    (ParseDirectory (fun _ => .ok ⟨404, "404 Not Found".toList, []⟩) (fun _ => .ok scenarioA)
      exampleBase).1 = .error (.statusCode 404) ∧
    mainStart (fun _ => .ok ⟨404, "404 Not Found".toList, []⟩) (fun _ => .ok scenarioA)
      exampleBase "./downloads".toList (.ok 1) none = .exit 1 :=
  have h := (C5_only_status_200_accepted (fun _ => .ok ⟨404, "404 Not Found".toList, []⟩)
    (fun _ => .ok scenarioA) exampleBase ⟨404, "404 Not Found".toList, []⟩ rfl).2 (by decide)
  ⟨h.1, h.2 _ _ _⟩

/-- Claim C5 as stated fails at status 204: the code is in the 200 class, yet
`ParseDirectory` returns the status error instead of parsing the body. -/
theorem C5_counterexample_status_204 :
    (200 ≤ (204 : Int) ∧ (204 : Int) < 300) ∧
    (ParseDirectory (fun _ => .ok ⟨204, "204 No Content".toList, []⟩) (fun _ => .ok scenarioA)
      exampleBase).1 = .error (.statusCode 204) ∧
    (ParseDirectory (fun _ => .ok ⟨204, "204 No Content".toList, []⟩) (fun _ => .ok scenarioA)
      exampleBase).1 ≠ parseHTML (fun _ => .ok scenarioA) [] :=
  ⟨by decide, rfl, by
    intro h
    have h2 : (Except.error (GoError.statusCode 204) : Except GoError (List GoString))
        = parseHTML (fun _ => .ok scenarioA) [] := h
    unfold parseHTML at h2
    cases h2⟩

/-! ## `fileExists` -/

/-- Claim C10, on the code.  When `os.Stat` fails with an error other than
"not found", `fileExists` does not return `false`: it panics on the nil
`info`.  It returns `false` on a missing path and on a directory, and `true`
on a non-directory. -/
theorem C10_fileExists_stat_error :
    fileExists (.fail .EACCES)
      = .panic "invalid memory address or nil pointer dereference".toList ∧
    (∀ err, fileExists (.fail err) =
      if err = .ENOENT then .ret false
      else .panic "invalid memory address or nil pointer dereference".toList) ∧
    (∀ info, fileExists (.ok info) = .ret (!info.IsDir)) := by
  refine ⟨rfl, ?_, ?_⟩
  · intro err
    cases err <;> rfl
  · intro info
    rfl

/-! ## The local file name of an accepted entry -/

theorem takeWhile_append_stop {p : Char → Bool} (l rest : GoString) (hl : ∀ c ∈ l, p c = true)
    (hr : rest = [] ∨ ∃ c t, rest = c :: t ∧ p c = false) :
    (l ++ rest).takeWhile p = l := by
  induction l with
  | nil =>
    rcases hr with rfl | ⟨c, t, rfl, hc⟩
    · rfl
    · simp [List.takeWhile_cons, hc]
  | cons a l ih =>
    have ha : p a = true := hl a (List.mem_cons_self _ _)
    simp only [List.cons_append, List.takeWhile_cons, ha, if_true]
    rw [ih fun c hc => hl c (List.mem_cons_of_mem _ hc)]

theorem dropWhile_head_stop {p : Char → Bool} (l : GoString)
    (hl : l = [] ∨ ∃ c t, l = c :: t ∧ p c = false) : l.dropWhile p = l := by
  rcases hl with rfl | ⟨c, t, rfl, hc⟩
  · rfl
  · simp [List.dropWhile_cons, hc]

/-- The function `filepath.Base` on a string that ends with `/` followed by a non-empty
slash-free element returns that element; so it does on the element alone. -/
theorem base_of_tail (pre e : GoString) (hpre : pre = [] ∨ ∃ x, pre = x ++ ['/'])
    (hne : e ≠ []) (hs : '/' ∉ e) : filepath.Base (pre ++ e) = e := by
  have hne2 : pre ++ e ≠ [] := by simp [hne]
  have hrev : (pre ++ e).reverse = e.reverse ++ pre.reverse := List.reverse_append _ _
  have hhead : ∃ c t, e.reverse = c :: t ∧ c ≠ '/' := by
    cases her : e.reverse with
    | nil => exact absurd (List.reverse_eq_nil_iff.mp her) hne
    | cons c t =>
      refine ⟨c, t, rfl, ?_⟩
      rintro rfl
      apply hs
      have : '/' ∈ e.reverse := by rw [her]; exact List.mem_cons_self _ _
      exact List.mem_reverse.mp this
  obtain ⟨c, t, hct, hc⟩ := hhead
  have hdrop : ((pre ++ e).reverse.dropWhile fun c => decide (c = '/')) = (pre ++ e).reverse := by
    apply dropWhile_head_stop
    right
    refine ⟨c, t ++ pre.reverse, ?_, by simpa using hc⟩
    rw [hrev, hct]
    rfl
  have htake : ((pre ++ e).reverse.takeWhile fun c => !decide (c = '/')) = e.reverse := by
    rw [hrev]
    apply takeWhile_append_stop
    · intro x hx
      have hx2 : x ∈ e := List.mem_reverse.mp hx
      have : x ≠ '/' := by
        rintro rfl
        exact hs hx2
      simpa using this
    · rcases hpre with rfl | ⟨x, rfl⟩
      · left
        rfl
      · right
        exact ⟨'/', x.reverse, by simp, by simp⟩
  unfold filepath.Base
  rw [if_neg hne2]
  simp only [hdrop, List.reverse_reverse, htake]
  rw [if_neg hne]

theorem lastIndexByte_take (c : Char) :
    ∀ (s : GoString) (i : Nat), strings.LastIndexByte s c = some i →
      ∃ x, s.take (i + 1) = x ++ [c] := by
  intro s
  induction s with
  | nil => intro i h; simp [strings.LastIndexByte] at h
  | cons a t ih =>
    intro i h
    unfold strings.LastIndexByte at h
    cases hl : strings.LastIndexByte t c with
    | some j =>
      rw [hl] at h
      simp only [Option.some.injEq] at h
      subst h
      obtain ⟨x, hx⟩ := ih j hl
      exact ⟨a :: x, by rw [List.take_succ_cons, hx]; rfl⟩
    | none =>
      rw [hl] at h
      by_cases hac : a = c
      · rw [if_pos hac] at h
        simp only [Option.some.injEq] at h
        subst h
        subst hac
        exact ⟨[], by simp⟩
      · rw [if_neg hac] at h
        cases h

theorem cutAll_ne_nil (s : GoString) : strings.cutAll s ≠ [] := by
  induction s with
  | nil => simp [strings.cutAll]
  | cons c t ih =>
    unfold strings.cutAll
    split
    · simp
    · split <;> simp

theorem cutAll_append_slash (x y : GoString) :
    strings.cutAll (x ++ '/' :: y) = strings.cutAll x ++ strings.cutAll y := by
  induction x with
  | nil => simp [strings.cutAll]
  | cons c t ih =>
    by_cases hc : c = '/'
    · subst hc
      simp [strings.cutAll, ih]
    · have h1 : strings.cutAll (c :: t ++ '/' :: y) =
          match strings.cutAll (t ++ '/' :: y) with
          | seg :: rest => (c :: seg) :: rest
          | [] => [[c]] := by
        rw [List.cons_append, strings.cutAll, if_neg hc]
      have h2 : strings.cutAll (c :: t) =
          match strings.cutAll t with
          | seg :: rest => (c :: seg) :: rest
          | [] => [[c]] := by
        rw [strings.cutAll, if_neg hc]
      rw [h1, h2, ih]
      cases ht : strings.cutAll t with
      | nil => exact absurd ht (cutAll_ne_nil t)
      | cons seg rest => rfl

theorem cutAll_no_slash (e : GoString) (hs : '/' ∉ e) : strings.cutAll e = [e] := by
  induction e with
  | nil => rfl
  | cons c t ih =>
    have hc : c ≠ '/' := by
      rintro rfl
      exact hs (List.mem_cons_self _ _)
    have ht : '/' ∉ t := fun h => hs (List.mem_cons_of_mem _ h)
    rw [strings.cutAll, if_neg hc, ih ht]

theorem resolveStep_first (st : GoString × Bool) (elem : GoString)
    (hst : st.2 = true → st.1 = "/".toList) :
    (url.resolveStep st elem).2 = true → (url.resolveStep st elem).1 = "/".toList := by
  unfold url.resolveStep
  split
  · intro h
    cases h
  · split
    · dsimp only
      cases hl : strings.LastIndexByte (st.1.drop 1) '/' with
      | none => intro _; rfl
      | some index =>
        intro h
        have h1 := hst h
        rw [h1] at hl
        simp [strings.LastIndexByte] at hl
    · intro h
      cases h

theorem foldl_resolveStep_first (elems : List GoString) :
    ∀ st : GoString × Bool, (st.2 = true → st.1 = "/".toList) →
      ((elems.foldl url.resolveStep st).2 = true →
        (elems.foldl url.resolveStep st).1 = "/".toList) := by
  induction elems with
  | nil => intro st hst; exact hst
  | cons a rest ih =>
    intro st hst
    rw [List.foldl_cons]
    exact ih _ (resolveStep_first st a hst)

/-- The path `resolvePath` computes for a non-empty reference without a slash
that is neither `.` nor `..` ends with `/` followed by the reference. -/
theorem resolvePath_tail (base e : GoString) (hne : e ≠ []) (hs : '/' ∉ e)
    (hdot : e ≠ ".".toList) (hdotdot : e ≠ "..".toList) :
    ∃ pre, url.resolvePath base e = pre ++ '/' :: e := by
  have hhead : e.head? ≠ some '/' := by
    cases e with
    | nil => simp
    | cons c t =>
      simp only [List.head?_cons, ne_eq, Option.some.injEq]
      rintro rfl
      exact hs (List.mem_cons_self _ _)
  -- the elements of the joined path are those of the directory, then `e`
  have hfull : ∃ (full : GoString) (segs : List GoString),
      (match strings.LastIndexByte base '/' with
        | none => e
        | some i => base.take (i + 1) ++ e) = full ∧ full ≠ [] ∧
      strings.cutAll full = segs ++ [e] := by
    cases hl : strings.LastIndexByte base '/' with
    | none => exact ⟨e, [], rfl, hne, by rw [cutAll_no_slash e hs]; rfl⟩
    | some i =>
      obtain ⟨x, hx⟩ := lastIndexByte_take '/' base i hl
      refine ⟨base.take (i + 1) ++ e, strings.cutAll x, rfl, by simp [hne], ?_⟩
      rw [hx, List.append_assoc, List.singleton_append, cutAll_append_slash,
        cutAll_no_slash e hs]
  obtain ⟨full, segs, hfulleq, hfullne, hcut⟩ := hfull
  have hlast : (segs ++ [e]).getLast? = some e := by simp
  have hnolast : ¬ (some e = some ".".toList ∨ some e = some "..".toList) := by
    rintro (h | h)
    · exact hdot (Option.some.inj h)
    · exact hdotdot (Option.some.inj h)
  have hinv := foldl_resolveStep_first segs ("/".toList, true) (fun _ => rfl)
  have hstep : ∀ st : GoString × Bool,
      url.resolveStep st e = ((if st.2 then st.1 else st.1 ++ "/".toList) ++ e, false) := by
    intro st
    unfold url.resolveStep
    rw [if_neg hdot, if_neg hdotdot]
  have hdst : ∃ pre, ((segs ++ [e]).foldl url.resolveStep ("/".toList, true)).1
      = pre ++ '/' :: e := by
    rw [List.foldl_append, List.foldl_cons, List.foldl_nil, hstep]
    generalize segs.foldl url.resolveStep ("/".toList, true) = st at hinv
    by_cases hf : st.2 = true
    · simp only [hf, if_true]
      rw [hinv hf]
      exact ⟨[], rfl⟩
    · simp only [hf]
      exact ⟨st.1, by simp⟩
  obtain ⟨pre, hpre⟩ := hdst
  unfold url.resolvePath
  simp only [if_neg hne, if_pos hhead, hfulleq, if_neg hfullne, hcut, hlast, if_neg hnolast,
    hpre]
  split
  · cases pre with
    | nil =>
      rename_i h
      simp only [List.nil_append, List.drop_succ_cons, List.drop_zero] at h
      exact absurd h hhead
    | cons c pre => exact ⟨pre, by simp⟩
  · exact ⟨pre, rfl⟩

theorem string_tail (u : url.URL) (hq : u.RawQuery = []) (hf : u.Fragment = []) :
    ∃ pre, url.String u = pre ++ u.Path := by
  unfold url.String
  simp only [hq, hf, ne_eq, not_true_eq_false, if_false]
  exact ⟨_, rfl⟩

theorem resolveReference_pathRef (base : url.URL) (e : GoString) (hne : e ≠ []) :
    url.ResolveReference base (url.pathRef e) =
      ⟨base.Scheme, base.User, base.Host, url.resolvePath base.Path e, [], []⟩ := by
  simp [url.ResolveReference, url.pathRef, hne]

theorem grammar_shape {e : GoString} (hg : FileNameGrammar e) :
    e ≠ [] ∧ '/' ∉ e ∧ e ≠ ".".toList ∧ e ≠ "..".toList ∧ 3 ≤ e.length := by
  have hchars := grammar_chars hg
  have hslash : '/' ∉ e := fun hmem => isNameChar_ne_slash (hchars _ hmem) rfl
  obtain ⟨name, ext, rfl, hname, -, hext, -, -⟩ := hg
  have hlen : 3 ≤ (name ++ '.' :: ext).length := by
    have : 1 ≤ name.length := List.length_pos.mpr hname
    simp only [List.length_append, List.length_cons]
    omega
  refine ⟨by simp, hslash, ?_, ?_, hlen⟩
  · intro h
    rw [h] at hlen
    revert hlen
    decide
  · intro h
    rw [h] at hlen
    revert hlen
    decide

theorem shouldEscape_nameChar {c : Char} (h : isNameChar c) : url.shouldEscape c = false := by
  unfold url.shouldEscape
  unfold isNameChar isAsciiLetter isAsciiDigit at h
  by_cases h1 : ('a' ≤ c ∧ c ≤ 'z') ∨ ('A' ≤ c ∧ c ≤ 'Z') ∨ ('0' ≤ c ∧ c ≤ '9')
  · rw [if_pos h1]
  · rw [if_neg h1, if_pos (by tauto)]

/-- The URL string `main` passes to `downloadFile` for an accepted entry ends
with `/` followed by the entry. -/
theorem fullURL_tail (base : url.URL) (e : GoString) (hacc : classify e = true) :
    ∃ pre, url.String (url.ResolveReference base (url.pathRef e)) = (pre ++ ['/']) ++ e := by
  obtain ⟨hne, hs, hdot, hdotdot, -⟩ := grammar_shape ((classify_iff_grammar e).mp hacc)
  rw [resolveReference_pathRef base e hne]
  obtain ⟨p1, hp1⟩ := string_tail
    ⟨base.Scheme, base.User, base.Host, url.resolvePath base.Path e, [], []⟩ rfl rfl
  obtain ⟨p2, hp2⟩ := resolvePath_tail base.Path e hne hs hdot hdotdot
  rw [hp1]
  simp only [hp2]
  exact ⟨p1 ++ p2, by simp⟩

/-- Claim C6.  For an entry the classifier accepts and a base URL whose path
ends with `/`, the file name `downloadFile` derives from the resolved URL is
the entry itself, which is also the final path segment of the entry: the
fallback name is not used, and the name is non-empty, has no path separator
and is neither `.` nor `..`.  The entry needs no percent-escaping in a path. -/
theorem C6_local_name_is_entry (base : url.URL) (e : GoString) (hacc : classify e = true)
    (_hbase : strings.HasSuffix base.Path "/".toList = true) :
    localFileName (url.String (url.ResolveReference base (url.pathRef e))) = e ∧
    filepath.Base e = e ∧
    filepath.Base (url.String (url.ResolveReference base (url.pathRef e))) = e ∧
    e ≠ "downloaded_file".toList ∧
    e ≠ [] ∧ '/' ∉ e ∧ e ≠ ".".toList ∧ e ≠ "..".toList ∧
    ∀ c ∈ e, url.shouldEscape c = false := by
  have hg := (classify_iff_grammar e).mp hacc
  obtain ⟨hne, hs, hdot, hdotdot, -⟩ := grammar_shape hg
  obtain ⟨pre, hpre⟩ := fullURL_tail base e hacc
  have hbase : filepath.Base (url.String (url.ResolveReference base (url.pathRef e))) = e := by
    rw [hpre]
    exact base_of_tail (pre ++ ['/']) e (Or.inr ⟨pre, rfl⟩) hne hs
  have hslash : e ≠ "/".toList := by
    rintro rfl
    exact hs (by decide)
  refine ⟨?_, ?_, hbase, ?_, hne, hs, hdot, hdotdot, ?_⟩
  · unfold localFileName
    simp only [hbase]
    rw [if_neg (by tauto)]
  · have := base_of_tail [] e (Or.inl rfl) hne hs
    simpa using this
  · rintro rfl
    revert hacc
    decide
  · intro c hc
    exact shouldEscape_nameChar (grammar_chars hg c hc)

/-- Claim C6 at the entry `report.pdf` under `http://example.com/files/`. -/
theorem C6_local_name_is_entry_witness :
    classify "report.pdf".toList = true ∧
    strings.HasSuffix exampleBase.Path "/".toList = true ∧
    url.String (url.ResolveReference exampleBase (url.pathRef "report.pdf".toList))
      = "http://example.com/files/report.pdf".toList ∧
    localFileName (url.String (url.ResolveReference exampleBase (url.pathRef "report.pdf".toList)))
      = "report.pdf".toList :=
  ⟨by decide, by decide, by decide,
    (C6_local_name_is_entry exampleBase "report.pdf".toList (by decide) (by decide)).1⟩

/-! ## The download loop: steps and invariants -/

theorem stepMain_rel {cfg : Config} {s s' : State} (h : stepMain cfg s = some s') :
    StepRel cfg s s' := by
  unfold stepMain at h
  split at h
  · rename_i p ps hpc hpend
    cases h
    exact StepRel.add s p ps hpc hpend
  · rename_i hpc hpend
    split at h
    · rename_i hwg
      cases h
      exact StepRel.exit s hpc hpend hwg
    · cases h
  · rename_i hpc
    split at h
    · rename_i hsem
      cases h
      exact StepRel.acquire s hpc hsem
    · cases h
  · rename_i p ps hpc hpend
    cases h
    exact StepRel.spawn s p ps hpc hpend
  · cases h
  · cases h

theorem stepTask_rel {cfg : Config} {s s' : State} {i : Nat} {t : Goroutine} {a : Act}
    (ht : s.tasks.get? i = some t) (h : stepTask cfg s i t a = some s') :
    StepRel cfg s s' := by
  obtain ⟨url, phase⟩ := t
  cases a with
  | main => simp [stepTask] at h
  | work j env =>
    cases phase <;> simp only [stepTask] at h <;> try cases h
    exact StepRel.work s i env url ht
  | release j =>
    cases phase <;> simp only [stepTask] at h <;> try cases h
    rename_i ok
    split at h
    · cases h
    · rename_i hsem
      cases h
      exact StepRel.release s i url ok ht hsem
  | wgDone j =>
    cases phase <;> simp only [stepTask] at h <;> try cases h
    rename_i ok
    split at h
    · rename_i hwg
      cases h
      exact StepRel.wgPanic s i url ok ht hwg
    · rename_i hwg
      cases h
      exact StepRel.wgDone s i url ok ht hwg
  | crash j =>
    cases phase <;> simp only [stepTask] at h <;> try cases h
    rename_i ok
    cases ok <;> simp only at h <;> try cases h
    exact StepRel.crash s i url ht

theorem step_rel {cfg : Config} {s s' : State} {a : Act} (h : step cfg s a = some s') :
    StepRel cfg s s' := by
  unfold step at h
  split at h
  · cases h
  · split at h
    · exact stepMain_rel h
    · rename_i i hi
      split at h
      · cases h
      · rename_i t ht
        exact stepTask_rel ht h

/-- A property that holds at the start of the loop and is kept by every step
holds in every reachable state. -/
theorem run_invariant {cfg : Config} (P : State → Prop)
    (hstep : ∀ s s', StepRel cfg s s' → P s → P s') :
    ∀ (acts : List Act) (s0 s : State), P s0 → run cfg s0 acts = some s → P s := by
  intro acts
  induction acts with
  | nil =>
    intro s0 s h0 h
    simp only [run, Option.some.injEq] at h
    exact h ▸ h0
  | cons a rest ih =>
    intro s0 s h0 h
    unfold run at h
    cases hs : step cfg s0 a with
    | none => rw [hs] at h; cases h
    | some s1 =>
      rw [hs] at h
      exact ih s1 s (hstep s0 s1 (step_rel hs) h0) h

theorem countP_set {p : Goroutine → Bool} :
    ∀ (l : List Goroutine) (i : Nat) (t t' : Goroutine), l.get? i = some t →
      (l.set i t').countP p + (if p t = true then 1 else 0)
        = l.countP p + (if p t' = true then 1 else 0) := by
  intro l
  induction l with
  | nil => intro i t t' h; simp at h
  | cons a l ih =>
    intro i t t' h
    cases i with
    | zero =>
      simp only [List.get?_cons_zero, Option.some.injEq] at h
      subst h
      simp only [List.set_cons_zero, List.countP_cons]
      omega
    | succ i =>
      simp only [List.get?_cons_succ] at h
      have := ih i t t' h
      simp only [List.set_cons_succ, List.countP_cons]
      omega

theorem slotInv_step {cfg : Config} (s s' : State) (h : StepRel cfg s s') :
    SlotInv cfg s → SlotInv cfg s' := by
  intro hinv
  unfold SlotInv active at *
  obtain ⟨h1, h2⟩ := hinv
  cases h with
  | add p ps hpc hpend => simp only [hpc] at h1; simpa using ⟨h1, h2⟩
  | exit hpc hpend hwg => simp only [hpc] at h1; simpa using ⟨h1, h2⟩
  | acquire hpc hsem =>
    simp only [hpc] at h1
    simp only [if_true]
    simp at h1
    constructor <;> omega
  | spawn p ps hpc hpend =>
    simp only [hpc, if_true] at h1
    simp only [List.countP_append, List.countP_cons, List.countP_nil]
    simp [Goroutine.holdsSlot]
    constructor <;> omega
  | work i env url ht =>
    have := countP_set (p := Goroutine.holdsSlot) s.tasks i ⟨url, .running⟩
      ⟨url, .returned (decide ((downloadFile env url cfg.output s.world).1 = .ret none))⟩ ht
    simp only [Goroutine.holdsSlot, if_true] at this
    dsimp only
    constructor <;> omega
  | release i url ok ht hsem =>
    have := countP_set (p := Goroutine.holdsSlot) s.tasks i ⟨url, .returned ok⟩
      ⟨url, .released ok⟩ ht
    simp only [Goroutine.holdsSlot, if_true] at this
    dsimp only
    simp at this
    constructor <;> omega
  | wgPanic i url ok ht hwg => exact ⟨h1, h2⟩
  | wgDone i url ok ht hwg =>
    have := countP_set (p := Goroutine.holdsSlot) s.tasks i ⟨url, .released ok⟩
      ⟨url, .done ok⟩ ht
    simp only [Goroutine.holdsSlot] at this
    dsimp only
    simp at this
    constructor <;> omega
  | crash i url ht => exact ⟨h1, h2⟩

theorem slotInv_reachable {cfg : Config} {paths : List GoString} {w : World} {s : State}
    (hr : Reachable cfg paths w s) : SlotInv cfg s := by
  obtain ⟨acts, hacts⟩ := hr
  refine run_invariant (SlotInv cfg) slotInv_step acts _ s ?_ hacts
  simp [SlotInv, initState, active]

/-- Claim C8.  In every state the download loop of `main` can reach, for every
capacity `N ≥ 1` of the semaphore channel and every list of entries, the number
of goroutines that have been started and have not yet released their slot is at
most the number of elements in the channel, which is at most `N`. -/
theorem C8_concurrency_bound (cfg : Config) (paths : List GoString) (w : World) (s : State)
    (_hN : 1 ≤ cfg.maxGoroutines) (hr : Reachable cfg paths w s) :
    active s ≤ s.semaphore ∧ s.semaphore ≤ cfg.maxGoroutines ∧
      active s ≤ cfg.maxGoroutines := by
  obtain ⟨h1, h2⟩ := slotInv_reachable hr
  refine ⟨?_, h2, ?_⟩ <;> omega

theorem map_url_set :
    ∀ (l : List Goroutine) (i : Nat) (t t' : Goroutine), l.get? i = some t → t'.url = t.url →
      (l.set i t').map Goroutine.url = l.map Goroutine.url := by
  intro l
  induction l with
  | nil => intro i t t' h; simp at h
  | cons a l ih =>
    intro i t t' h hu
    cases i with
    | zero =>
      simp only [List.get?_cons_zero, Option.some.injEq] at h
      subst h
      simp [hu]
    | succ i =>
      simp only [List.get?_cons_succ] at h
      simp [ih i t t' h hu]

theorem barrierInv_step {cfg : Config} {paths : List GoString} (s s' : State)
    (h : StepRel cfg s s') : BarrierInv cfg paths s → BarrierInv cfg paths s' := by
  intro hinv
  unfold BarrierInv at *
  obtain ⟨h1, h2, h3⟩ := hinv
  cases h with
  | add p ps hpc hpend =>
    simp only [hpc] at h1
    refine ⟨?_, h2, ?_⟩
    · simp at h1 ⊢
      omega
    · simp
  | exit hpc hpend hwg =>
    simp only [hpc] at h1
    refine ⟨?_, h2, ?_⟩
    · simpa using h1
    · intro _
      exact ⟨hpend, hwg⟩
  | acquire hpc hsem =>
    simp only [hpc] at h1
    refine ⟨?_, h2, ?_⟩
    · simpa using h1
    · simp
  | spawn p ps hpc hpend =>
    simp only [hpc] at h1
    refine ⟨?_, ?_, ?_⟩
    · simp only [List.countP_append, List.countP_cons, List.countP_nil]
      simp [Goroutine.finished] at h1 ⊢
      omega
    · rw [hpend] at h2
      simpa using h2
    · simp
  | work i env url ht =>
    have hc := countP_set (p := fun t => !t.finished) s.tasks i ⟨url, .running⟩
      ⟨url, .returned (decide ((downloadFile env url cfg.output s.world).1 = .ret none))⟩ ht
    have e1 : (!Goroutine.finished ⟨url, .running⟩) = true := rfl
    have e2 : (!Goroutine.finished ⟨url, .returned
      (decide ((downloadFile env url cfg.output s.world).1 = .ret none))⟩) = true := rfl
    simp only [e1, e2, if_true] at hc
    refine ⟨?_, ?_, h3⟩
    · dsimp only
      omega
    · dsimp only
      rw [map_url_set s.tasks i ⟨url, .running⟩ ⟨url, .returned
        (decide ((downloadFile env url cfg.output s.world).1 = .ret none))⟩ ht rfl]
      exact h2
  | release i url ok ht hsem =>
    have hc := countP_set (p := fun t => !t.finished) s.tasks i ⟨url, .returned ok⟩
      ⟨url, .released ok⟩ ht
    have e1 : (!Goroutine.finished ⟨url, .returned ok⟩) = true := rfl
    have e2 : (!Goroutine.finished ⟨url, .released ok⟩) = true := rfl
    simp only [e1, e2, if_true] at hc
    refine ⟨?_, ?_, h3⟩
    · dsimp only
      omega
    · dsimp only
      rw [map_url_set s.tasks i ⟨url, .returned ok⟩ ⟨url, .released ok⟩ ht rfl]
      exact h2
  | wgPanic i url ok ht hwg => exact ⟨h1, h2, h3⟩
  | wgDone i url ok ht hwg =>
    have hc := countP_set (p := fun t => !t.finished) s.tasks i ⟨url, .released ok⟩
      ⟨url, .done ok⟩ ht
    have e1 : (!Goroutine.finished ⟨url, .released ok⟩) = true := rfl
    have e2 : (!Goroutine.finished ⟨url, .done ok⟩) = false := rfl
    simp only [e1, e2, if_true, Bool.false_eq_true, if_false] at hc
    have hextra : (if s.pc = MainPc.added ∨ s.pc = MainPc.acquired then 1 else 0) ≤ 1 := by
      split <;> omega
    refine ⟨?_, ?_, ?_⟩
    · dsimp only
      omega
    · dsimp only
      rw [map_url_set s.tasks i ⟨url, .released ok⟩ ⟨url, .done ok⟩ ht rfl]
      exact h2
    · intro hpc
      exact absurd (h3 hpc).2 hwg
  | crash i url ht => exact ⟨h1, h2, h3⟩

theorem barrierInv_reachable {cfg : Config} {paths : List GoString} {w : World} {s : State}
    (hr : Reachable cfg paths w s) : BarrierInv cfg paths s := by
  obtain ⟨acts, hacts⟩ := hr
  refine run_invariant (BarrierInv cfg paths) barrierInv_step acts _ s ?_ hacts
  simp [BarrierInv, initState]

theorem all_finished_of_exited {cfg : Config} {paths : List GoString} {s : State}
    (hinv : BarrierInv cfg paths s) (hpc : s.pc = .exited) :
    ∀ t ∈ s.tasks, t.finished = true := by
  obtain ⟨h1, -, h3⟩ := hinv
  have hwg := (h3 hpc).2
  simp only [hpc] at h1
  have hz : (s.tasks.countP fun t => !t.finished) = 0 := by
    simp at h1
    omega
  intro t ht
  have := (List.countP_eq_zero.mp hz) t ht
  simpa using this

/-- Claim C9.  In every reachable state of the download loop: if `main` has
passed `wg.Wait()` and returned, then the range is exhausted, a goroutine was
started for every entry, every goroutine has finished (slot released and
`wg.Done()` called), and no slot is in use; and while some started goroutine
has not finished, the step of `main` at `wg.Wait()` is blocked. -/
theorem C9_barrier (cfg : Config) (paths : List GoString) (w : World) (s : State)
    (_hN : 1 ≤ cfg.maxGoroutines) (hr : Reachable cfg paths w s) :
    (s.pc = .exited →
      s.pending = [] ∧ s.tasks.map Goroutine.url = paths.map (fullURL cfg) ∧
      (∀ t ∈ s.tasks, t.finished = true) ∧ active s = 0 ∧ s.semaphore = 0 ∧ s.wg = 0) ∧
    ((∃ t ∈ s.tasks, t.finished = false) → s.pc = .loop → s.pending = [] →
      step cfg s .main = none) := by
  have hb := barrierInv_reachable hr
  have hsl := slotInv_reachable hr
  constructor
  · intro hpc
    have hfin := all_finished_of_exited hb hpc
    obtain ⟨-, h2, h3⟩ := hb
    obtain ⟨hpend, hwg⟩ := h3 hpc
    have hact : active s = 0 := by
      unfold active
      rw [List.countP_eq_zero]
      intro t ht
      have := hfin t ht
      unfold Goroutine.finished at this
      unfold Goroutine.holdsSlot
      cases hph : t.phase <;> simp [hph] at this ⊢
    refine ⟨hpend, ?_, hfin, hact, ?_, hwg⟩
    · rw [hpend] at h2
      simpa using h2
    · have := hsl.1
      simp only [hpc] at this
      simp at this
      omega
  · rintro ⟨t, ht, hunf⟩ hpc hpend
    obtain ⟨h1, -, -⟩ := hb
    have hpos : 0 < s.tasks.countP fun t => !t.finished := by
      rw [List.countP_pos_iff]
      exact ⟨t, ht, by simp [hunf]⟩
    have hwg : s.wg ≠ 0 := by omega
    unfold step
    split
    · rfl
    · simp only [Act.index, stepMain, hpc, hpend, if_neg hwg]

/-! ## Existing files are not fetched again -/

theorem downloadFile_existing (env : Env) (url outputDir : GoString) (w : World) (c : GoString)
    (h : w.fs (outputPath url outputDir) = .regular c) :
    downloadFile env url outputDir w = (.ret none, w) := by
  unfold downloadFile
  simp [os.Stat, h, fileExists, os.IsNotExist]

theorem fileExists_false_missing_or_dir (w : World) (p : GoString)
    (h : fileExists (os.Stat w p) = .ret false) :
    w.fs p = .missing ∨ w.fs p = .directory := by
  unfold os.Stat at h
  cases hk : w.fs p with
  | missing => exact Or.inl rfl
  | directory => exact Or.inr rfl
  | regular c =>
    rw [hk] at h
    simp [fileExists, os.IsNotExist] at h

theorem create_fs (env : Env) (w w1 : World) (p : GoString)
    (h : os.Create env w p = .ok w1) :
    w1.fs = setFile w.fs p (.regular []) ∧ w1.gets = w.gets := by
  unfold os.Create at h
  split at h
  · cases h
  · split at h
    · cases h
    · cases h
      exact ⟨rfl, rfl⟩

/-- A call of `downloadFile` changes the file system at most at its output
path, and only when no regular file is there. -/
theorem downloadFile_fs (env : Env) (url outputDir : GoString) (w : World) :
    (downloadFile env url outputDir w).2.fs = w.fs ∨
    ((w.fs (outputPath url outputDir) = .missing ∨ w.fs (outputPath url outputDir) = .directory) ∧
      ∃ c, (downloadFile env url outputDir w).2.fs
        = setFile w.fs (outputPath url outputDir) (.regular c)) := by
  unfold downloadFile
  cases hfe : fileExists (os.Stat w (outputPath url outputDir)) with
  | panic msg => exact Or.inl rfl
  | ret b =>
    cases b with
    | true => exact Or.inl rfl
    | false =>
      have hmd := fileExists_false_missing_or_dir w _ hfe
      dsimp only
      cases hcr : os.Create env w (outputPath url outputDir) with
      | error err => exact Or.inl rfl
      | ok w1 =>
        obtain ⟨hfs, -⟩ := create_fs env w w1 _ hcr
        dsimp only
        cases env.getResult with
        | error err => exact Or.inr ⟨hmd, [], hfs⟩
        | ok resp =>
          dsimp only
          split
          · exact Or.inr ⟨hmd, [], hfs⟩
          · cases env.copyErr with
            | some we =>
              refine Or.inr ⟨hmd, we.1, ?_⟩
              dsimp only
              rw [hfs]
              funext q
              simp only [setFile]
              split <;> rfl
            | none =>
              refine Or.inr ⟨hmd, resp.Body, ?_⟩
              dsimp only
              rw [hfs]
              funext q
              simp only [setFile]
              split <;> rfl

theorem downloadFile_keeps_regular (env : Env) (url outputDir : GoString) (w : World)
    (p c : GoString) (h : w.fs p = .regular c) :
    (downloadFile env url outputDir w).2.fs p = .regular c := by
  rcases downloadFile_fs env url outputDir w with heq | ⟨hmd, c', heq⟩
  · rw [heq, h]
  · rw [heq]
    unfold setFile
    have hne : p ≠ outputPath url outputDir := by
      rintro rfl
      rcases hmd with hm | hm <;> rw [hm] at h <;> cases h
    rw [if_neg hne, h]

theorem downloadFile_ok_regular (env : Env) (url outputDir : GoString) (w : World)
    (h : (downloadFile env url outputDir w).1 = .ret none) :
    ∃ c, (downloadFile env url outputDir w).2.fs (outputPath url outputDir) = .regular c := by
  rcases downloadFile_fs env url outputDir w with heq | ⟨-, c', heq⟩
  · rw [heq]
    unfold downloadFile at h heq
    cases hfe : fileExists (os.Stat w (outputPath url outputDir)) with
    | panic msg => rw [hfe] at h; cases h
    | ret b =>
      cases b with
      | true =>
        unfold os.Stat at hfe
        cases hk : w.fs (outputPath url outputDir) with
        | missing => rw [hk] at hfe; simp [fileExists, os.IsNotExist] at hfe
        | directory => rw [hk] at hfe; simp [fileExists, os.IsNotExist] at hfe
        | regular c => exact ⟨c, rfl⟩
      | false =>
        exfalso
        rw [hfe] at h heq
        dsimp only at h heq
        cases hcr : os.Create env w (outputPath url outputDir) with
        | error err => rw [hcr] at h; cases h
        | ok w1 =>
          obtain ⟨hfs, -⟩ := create_fs env w w1 _ hcr
          rw [hcr] at heq
          dsimp only at heq
          have hmd := fileExists_false_missing_or_dir w _ hfe
          have hreg : ∀ w2 : World, (∃ c, w2.fs (outputPath url outputDir) = .regular c) →
              w2.fs ≠ w.fs := by
            rintro w2 ⟨c, hc⟩ heq2
            rw [heq2] at hc
            rcases hmd with hm | hm <;> rw [hm] at hc <;> cases hc
          revert heq
          cases env.getResult with
          | error err => exact hreg _ ⟨[], by dsimp only; rw [hfs]; simp [setFile]⟩
          | ok resp =>
            dsimp only
            split
            · exact hreg _ ⟨[], by dsimp only; rw [hfs]; simp [setFile]⟩
            · cases env.copyErr with
              | some we => exact hreg _ ⟨we.1, by simp [setFile]⟩
              | none => exact hreg _ ⟨resp.Body, by simp [setFile]⟩
  · rw [heq]
    exact ⟨c', by simp [setFile]⟩

theorem doneInv_step {cfg : Config} (s s' : State) (h : StepRel cfg s s') :
    DoneInv cfg s → DoneInv cfg s' := by
  intro hinv
  unfold DoneInv at *
  cases h with
  | add p ps hpc hpend => exact hinv
  | exit hpc hpend hwg => exact hinv
  | acquire hpc hsem => exact hinv
  | spawn p ps hpc hpend =>
    intro t ht hs
    rcases List.mem_append.mp ht with ht | ht
    · exact hinv t ht hs
    · rw [List.mem_singleton] at ht
      subst ht
      cases hs
  | work i env url hget =>
    intro t ht hs
    rcases List.mem_or_eq_of_mem_set ht with ht | ht
    · obtain ⟨c, hc⟩ := hinv t ht hs
      exact ⟨c, downloadFile_keeps_regular env url cfg.output s.world _ c hc⟩
    · subst ht
      have hok : (downloadFile env url cfg.output s.world).1 = .ret none := by
        simpa [Goroutine.succeeded] using hs
      exact downloadFile_ok_regular env url cfg.output s.world hok
  | release i url ok hget hsem =>
    intro t ht hs
    rcases List.mem_or_eq_of_mem_set ht with ht | ht
    · exact hinv t ht hs
    · subst ht
      exact hinv ⟨url, .returned ok⟩ (List.get?_mem hget) hs
  | wgPanic i url ok hget hwg => exact hinv
  | wgDone i url ok hget hwg =>
    intro t ht hs
    rcases List.mem_or_eq_of_mem_set ht with ht | ht
    · exact hinv t ht hs
    · subst ht
      exact hinv ⟨url, .released ok⟩ (List.get?_mem hget) hs
  | crash i url hget => exact hinv

theorem doneInv_reachable {cfg : Config} {paths : List GoString} {w : World} {s : State}
    (hr : Reachable cfg paths w s) : DoneInv cfg s := by
  obtain ⟨acts, hacts⟩ := hr
  refine run_invariant (DoneInv cfg) doneInv_step acts _ s ?_ hacts
  intro t ht
  simp [initState] at ht

/-- When a regular file stands at the output path of every entry, no step of
the download loop changes the world. -/
theorem frame_step {cfg : Config} {paths : List GoString} {w0 : World}
    (hreg : ∀ u ∈ paths.map (fullURL cfg), ∃ c, w0.fs (outputPath u cfg.output) = .regular c)
    (s s' : State) (h : StepRel cfg s s') :
    (BarrierInv cfg paths s ∧ s.world = w0) → (BarrierInv cfg paths s' ∧ s'.world = w0) := by
  rintro ⟨hb, hw⟩
  refine ⟨barrierInv_step s s' h hb, ?_⟩
  cases h with
  | add p ps hpc hpend => exact hw
  | exit hpc hpend hwg => exact hw
  | acquire hpc hsem => exact hw
  | spawn p ps hpc hpend => exact hw
  | work i env url hget =>
    have hmem : url ∈ paths.map (fullURL cfg) := by
      rw [← hb.2.1]
      apply List.mem_append_left
      exact List.mem_map.mpr ⟨⟨url, .running⟩, List.get?_mem hget, rfl⟩
    obtain ⟨c, hc⟩ := hreg url hmem
    rw [← hw] at hc
    show (downloadFile env url cfg.output s.world).2 = w0
    rw [downloadFile_existing env url cfg.output s.world c hc]
    exact hw
  | release i url ok hget hsem => exact hw
  | wgPanic i url ok hget hwg => exact hw
  | wgDone i url ok hget hwg => exact hw
  | crash i url hget => exact hw

theorem frame_reachable (cfg : Config) {paths : List GoString} {w0 : World} {s : State}
    (hreg : ∀ u ∈ paths.map (fullURL cfg), ∃ c, w0.fs (outputPath u cfg.output) = .regular c)
    (hr : Reachable cfg paths w0 s) : s.world = w0 := by
  obtain ⟨acts, hacts⟩ := hr
  have := run_invariant (fun s => BarrierInv cfg paths s ∧ s.world = w0) (frame_step hreg)
    acts _ s ⟨by simp [BarrierInv, initState], rfl⟩ hacts
  exact this.2

/-- After a run that ended with `main` returned and every `downloadFile` call
returning nil, a regular file stands at the output path of every entry. -/
theorem all_regular_after_run {cfg : Config} {paths : List GoString} {w : World} {s : State}
    (hr : Reachable cfg paths w s) (hpc : s.pc = .exited)
    (hok : ∀ t ∈ s.tasks, t.succeeded = true) :
    ∀ u ∈ paths.map (fullURL cfg), ∃ c, s.world.fs (outputPath u cfg.output) = .regular c := by
  have hb := barrierInv_reachable hr
  have hd := doneInv_reachable hr
  obtain ⟨-, h2, h3⟩ := hb
  rw [(h3 hpc).1] at h2
  simp only [List.map_nil, List.append_nil] at h2
  intro u hu
  rw [← h2] at hu
  obtain ⟨t, ht, rfl⟩ := List.mem_map.mp hu
  exact hd t ht (hok t ht)

/-- Claim C7.  Over the model of the output directory (each path missing, a
regular file or a directory) and the log of issued GETs: when a regular file
stands at the computed output path, `downloadFile` returns nil and leaves the
directory and the log as they are; and after a run of the download loop that
ended with `main` returned and no download error, every state of a second run
over the same entries, from the directory the first run left and an empty log,
has an empty log and the same directory, whatever the concurrency limit. -/
theorem C7_idempotence :
    (∀ (env : Env) (url outputDir : GoString) (w : World) (c : GoString),
      w.fs (outputPath url outputDir) = .regular c →
      downloadFile env url outputDir w = (.ret none, w)) ∧
    (∀ (cfg : Config) (paths : List GoString) (w : World) (s1 : State),
      Reachable cfg paths w s1 → s1.pc = .exited → (∀ t ∈ s1.tasks, t.succeeded = true) →
      ∀ (n2 : Nat) (s2 : State),
        Reachable { cfg with maxGoroutines := n2 } paths ⟨s1.world.fs, []⟩ s2 →
        s2.world.gets = [] ∧ s2.world.fs = s1.world.fs) := by
  refine ⟨downloadFile_existing, ?_⟩
  intro cfg paths w s1 hr1 hpc hok n2 s2 hr2
  have hreg := all_regular_after_run hr1 hpc hok
  have hw : s2.world = ⟨s1.world.fs, []⟩ :=
    frame_reachable { cfg with maxGoroutines := n2 } hreg hr2
  rw [hw]
  exact ⟨rfl, rfl⟩

theorem scenarioC_run :
    run (exampleCfg 1) (initState ["a.txt".toList] ⟨fsWithA, []⟩) scenarioCActs
      = some scenarioCEnd := rfl

/-- Claim C7 on scenario C: the directory holds `a.txt`, the entries are
`a.txt`; `downloadFile` returns nil without a GET, the run completes, and the
second run issues no GET and leaves the directory unchanged. -/
theorem C7_idempotence_witness :
    fsWithA (outputPath "http://example.com/files/a.txt".toList "./downloads".toList)
      = .regular "old".toList ∧
    downloadFile (okEnv "new") "http://example.com/files/a.txt".toList "./downloads".toList
      ⟨fsWithA, []⟩ = (.ret none, ⟨fsWithA, []⟩) ∧
    Reachable (exampleCfg 1) ["a.txt".toList] ⟨fsWithA, []⟩ scenarioCEnd ∧
    scenarioCEnd.world.gets = [] ∧ scenarioCEnd.world.fs = fsWithA :=
  have hr : Reachable (exampleCfg 1) ["a.txt".toList] ⟨fsWithA, []⟩ scenarioCEnd :=
    ⟨scenarioCActs, scenarioC_run⟩
  have h2 := C7_idempotence.2 (exampleCfg 1) ["a.txt".toList] ⟨fsWithA, []⟩ scenarioCEnd hr rfl
    (by decide) 1 scenarioCEnd hr
  ⟨by decide, C7_idempotence.1 (okEnv "new") _ _ ⟨fsWithA, []⟩ "old".toList (by decide),
    hr, h2.1, h2.2⟩

theorem oneRunning_run :
    run (exampleCfg 1) (initState ["a.txt".toList, "b.txt".toList] ⟨fsWithA, []⟩)
      [.main, .main, .main] = some oneRunning := rfl

theorem mainWaiting_run :
    run (exampleCfg 1) (initState ["a.txt".toList] ⟨fsWithA, []⟩) [.main, .main, .main]
      = some mainWaiting := rfl

/-- Claim C8 with capacity 1 and the entries `a.txt`, `b.txt`: once the
goroutine of `a.txt` runs, one slot is in use, the bound is met, and `main`
cannot acquire a second slot. -/
theorem C8_concurrency_bound_witness :
    Reachable (exampleCfg 1) ["a.txt".toList, "b.txt".toList] ⟨fsWithA, []⟩ oneRunning ∧
    active oneRunning = 1 ∧ active oneRunning ≤ (exampleCfg 1).maxGoroutines ∧
    run (exampleCfg 1) oneRunning [.main, .main] = none :=
  have hr : Reachable (exampleCfg 1) ["a.txt".toList, "b.txt".toList] ⟨fsWithA, []⟩ oneRunning :=
    ⟨_, oneRunning_run⟩
  ⟨hr, by decide,
    (C8_concurrency_bound (exampleCfg 1) _ _ oneRunning (by decide) hr).2.2, rfl⟩

/-- Claim C9 on the loop over `a.txt`: while the goroutine runs, `main` is
blocked at `wg.Wait()`; in the state where `main` has returned, the goroutine
has finished. -/
theorem C9_barrier_witness :
    Reachable (exampleCfg 1) ["a.txt".toList] ⟨fsWithA, []⟩ mainWaiting ∧
    step (exampleCfg 1) mainWaiting .main = none ∧
    Reachable (exampleCfg 1) ["a.txt".toList] ⟨fsWithA, []⟩ scenarioCEnd ∧
    scenarioCEnd.pc = .exited ∧
    (∀ t ∈ scenarioCEnd.tasks, t.finished = true) :=
  have hw : Reachable (exampleCfg 1) ["a.txt".toList] ⟨fsWithA, []⟩ mainWaiting :=
    ⟨_, mainWaiting_run⟩
  have he : Reachable (exampleCfg 1) ["a.txt".toList] ⟨fsWithA, []⟩ scenarioCEnd :=
    ⟨scenarioCActs, scenarioC_run⟩
  ⟨hw,
    (C9_barrier (exampleCfg 1) _ _ mainWaiting (by decide) hw).2
      ⟨⟨"http://example.com/files/a.txt".toList, .running⟩, by decide, by decide⟩ rfl rfl,
    he, rfl,
    ((C9_barrier (exampleCfg 1) _ _ scenarioCEnd (by decide) he).1 rfl).2.2.1⟩
